import Mathlib

/-!
Verification of the chunking and hybrid-retrieval core of the
Local-Personalized-RAG-Assistant repository.

Texts are embedded as lists of characters (`Str := List Char`), documents as
records of the fields the code actually reads, and the file system / vector
store / scoring models as explicit function parameters (they are external
collaborators in the source).  Each definition mirrors one Python function of
the repository; definitions whose doc comment starts with `Modelled from the
spec:` embed core components whose implementation lives in a third-party
library rather than under `src/` (the recursive character splitter), following
the specification's description of them.
-/

/-- Texts are modelled as lists of characters. -/
abbrev Str := List Char

/-- Convert a Lean string literal to the character-list representation. -/
def str (s : String) : Str := s.toList

/-- ASCII whitespace as matched by Python's `\s` and stripped by `str.strip()`:
space, tab, newline, carriage return, vertical tab, form feed. -/
def isPyWS (c : Char) : Bool :=
  c == ' ' || c == '\t' || c == '\n' || c == '\r' || c == '\x0b' || c == '\x0c'

/-- The character class `[ \f\v]` of `_clean_text`'s horizontal-whitespace
collapsing regex. -/
def isSpFV (c : Char) : Bool :=
  c == ' ' || c == '\x0c' || c == '\x0b'

/-- `text.replace("\r\n", "\n")` from `_clean_text` (src/scripts/chunk_papers.py):
every occurrence of the two-character sequence CR LF becomes a single LF. -/
def replace_crlf : Str → Str
  | [] => []
  | [c] => [c]
  | a :: b :: rest =>
    if a == '\r' && b == '\n' then '\n' :: replace_crlf rest
    else a :: replace_crlf (b :: rest)

/-- `text.replace("\r", "\n")` from `_clean_text`. -/
def map_cr (t : Str) : Str := t.map fun c => if c == '\r' then '\n' else c

/-- `text.replace("\t", " ")` from `_clean_text`. -/
def map_tab (t : Str) : Str := t.map fun c => if c == '\t' then ' ' else c

/-- `re.sub(r"[ \f\v]+", " ", text)` from `_clean_text`: each maximal run of
space/form-feed/vertical-tab characters becomes a single space. -/
def collapse_sp : Str → Str
  | [] => []
  | c :: rest =>
    if isSpFV c then ' ' :: collapse_sp (rest.dropWhile isSpFV)
    else c :: collapse_sp rest
termination_by l => l.length
decreasing_by
  · exact Nat.lt_succ_of_le (List.IsSuffix.length_le (List.dropWhile_suffix _))
  · simp

/-- `re.sub(r"\n{3,}", "\n\n", text)` from `_clean_text`: each maximal run of
three or more newlines becomes exactly two newlines. -/
def collapse_nl : Str → Str
  | [] => []
  | c :: rest =>
    if c == '\n' then
      (if (rest.takeWhile (· == '\n')).length ≥ 2 then ['\n', '\n']
       else '\n' :: rest.takeWhile (· == '\n'))
        ++ collapse_nl (rest.dropWhile (· == '\n'))
    else c :: collapse_nl rest
termination_by l => l.length
decreasing_by
  · exact Nat.lt_succ_of_le (List.IsSuffix.length_le (List.dropWhile_suffix _))
  · simp

/-- Leading-whitespace removal, half of Python's `str.strip()`. -/
def lstrip (t : Str) : Str := t.dropWhile isPyWS

/-- Trailing-whitespace removal, the other half of Python's `str.strip()`. -/
def rstrip (t : Str) : Str := (t.reverse.dropWhile isPyWS).reverse

/-- Python's `str.strip()` (ASCII whitespace). -/
def strip (t : Str) : Str := rstrip (lstrip t)

/-- The text normalizer `_clean_text` of src/scripts/chunk_papers.py: the empty
guard, CRLF/CR/TAB replacement, horizontal-whitespace collapsing, newline-run
collapsing, and final strip, in the source's order. -/
def clean_text (t : Str) : Str :=
  if t = [] then []
  else strip (collapse_nl (collapse_sp (map_tab (map_cr (replace_crlf t)))))

/-- No two adjacent spaces anywhere in the text. -/
def noTwoSp : Str → Bool
  | [] => true
  | [_] => true
  | a :: b :: rest => !(a == ' ' && b == ' ') && noTwoSp (b :: rest)

/-- No three adjacent newlines anywhere in the text. -/
def noRun3NL : Str → Bool
  | [] => true
  | [_] => true
  | [_, _] => true
  | a :: b :: c :: rest =>
    !(a == '\n' && b == '\n' && c == '\n') && noRun3NL (b :: c :: rest)

/-- Characterization of `_clean_text`'s image: no CR, TAB, FF, VT characters,
no two adjacent spaces, no three adjacent newlines, and no whitespace at either
end. -/
def Normalized (t : Str) : Prop :=
  '\r' ∉ t ∧ '\t' ∉ t ∧ '\x0c' ∉ t ∧ '\x0b' ∉ t ∧
    noTwoSp t = true ∧ noRun3NL t = true ∧
    (∀ c ∈ t.head?, isPyWS c = false) ∧ (∀ c ∈ t.getLast?, isPyWS c = false)

theorem noTwoSp_cons {a : Char} {t : Str} (h : noTwoSp (a :: t) = true) :
    noTwoSp t = true := by
  cases t with
  | nil => rfl
  | cons b r => simp [noTwoSp] at h; exact h.2

theorem noRun3NL_cons {a : Char} {t : Str} (h : noRun3NL (a :: t) = true) :
    noRun3NL t = true := by
  cases t with
  | nil => rfl
  | cons b r =>
    cases r with
    | nil => rfl
    | cons c r2 => simp [noRun3NL] at h; exact h.2

theorem noTwoSp_append_left {l p : Str} (h : noTwoSp (l ++ p) = true) :
    noTwoSp l = true := by
  induction l with
  | nil => rfl
  | cons a r ih =>
    cases r with
    | nil => rfl
    | cons b r2 =>
      simp only [List.cons_append, noTwoSp, Bool.and_eq_true] at h ⊢
      exact ⟨h.1, ih h.2⟩

theorem noTwoSp_append_right {p l : Str} (h : noTwoSp (p ++ l) = true) :
    noTwoSp l = true := by
  induction p with
  | nil => exact h
  | cons a r ih => exact ih (noTwoSp_cons (t := r ++ l) h)

theorem noRun3NL_append_left {l p : Str} (h : noRun3NL (l ++ p) = true) :
    noRun3NL l = true := by
  induction l with
  | nil => rfl
  | cons a r ih =>
    cases r with
    | nil => rfl
    | cons b r2 =>
      cases r2 with
      | nil => rfl
      | cons c r3 =>
        simp only [List.cons_append, noRun3NL, Bool.and_eq_true] at h ⊢
        exact ⟨h.1, ih h.2⟩

theorem noRun3NL_append_right {p l : Str} (h : noRun3NL (p ++ l) = true) :
    noRun3NL l = true := by
  induction p with
  | nil => exact h
  | cons a r ih => exact ih (noRun3NL_cons (t := r ++ l) h)

theorem dropWhile_head_not {p : Char → Bool} {l : Str} {c : Char}
    (h : (l.dropWhile p).head? = some c) : p c = false := by
  induction l with
  | nil => simp [List.dropWhile] at h
  | cons a r ih =>
    rw [List.dropWhile_cons] at h
    by_cases hp : p a = true
    · simp [hp] at h; exact ih h
    · simp [hp] at h
      simp only [Bool.not_eq_true] at hp
      rw [← h]; exact hp

theorem collapse_sp_head? (t : Str) :
    (collapse_sp t).head? = t.head?.map (fun d => if isSpFV d then ' ' else d) := by
  cases t with
  | nil => simp [collapse_sp]
  | cons c rest =>
    rw [collapse_sp]
    by_cases h : isSpFV c <;> simp [h]

theorem mem_collapse_sp {t : Str} : ∀ c ∈ collapse_sp t, c ∈ t ∨ c = ' ' := by
  induction t using collapse_sp.induct with
  | case1 => simp [collapse_sp]
  | case2 d rest hd ih =>
    intro c hc
    rw [collapse_sp, if_pos hd] at hc
    rcases List.mem_cons.1 hc with hc | hc
    · right; exact hc
    · rcases ih c hc with h2 | h2
      · left; exact List.mem_cons_of_mem _ ((List.dropWhile_suffix isSpFV).subset h2)
      · right; exact h2
  | case3 d rest hd ih =>
    intro c hc
    rw [collapse_sp, if_neg hd] at hc
    rcases List.mem_cons.1 hc with hc | hc
    · left; simp [hc]
    · rcases ih c hc with h2 | h2
      · left; exact List.mem_cons_of_mem _ h2
      · right; exact h2

theorem collapse_sp_spfv {t : Str} :
    ∀ c ∈ collapse_sp t, isSpFV c = true → c = ' ' := by
  induction t using collapse_sp.induct with
  | case1 => simp [collapse_sp]
  | case2 d rest hd ih =>
    intro c hc hsp
    rw [collapse_sp, if_pos hd] at hc
    rcases List.mem_cons.1 hc with hc | hc
    · exact hc
    · exact ih c hc hsp
  | case3 d rest hd ih =>
    intro c hc hsp
    rw [collapse_sp, if_neg hd] at hc
    rcases List.mem_cons.1 hc with hc | hc
    · exact absurd (hc ▸ hsp) hd
    · exact ih c hc hsp

theorem noTwoSp_cons_intro {a : Char} {t : Str} (ht : noTwoSp t = true)
    (hh : ∀ x ∈ t.head?, ¬(a = ' ' ∧ x = ' ')) : noTwoSp (a :: t) = true := by
  cases t with
  | nil => rfl
  | cons b r =>
    have hb := hh b (by simp)
    simp only [noTwoSp, Bool.and_eq_true, ht, and_true]
    by_cases ha : a = ' ' <;> by_cases hb2 : b = ' '
    · exact absurd ⟨ha, hb2⟩ hb
    all_goals simp [ha, hb2]

theorem noTwoSp_collapse_sp (t : Str) : noTwoSp (collapse_sp t) = true := by
  induction t using collapse_sp.induct with
  | case1 => simp [collapse_sp, noTwoSp]
  | case2 d rest hd ih =>
    rw [collapse_sp, if_pos hd]
    refine noTwoSp_cons_intro ih ?_
    intro x hx hand
    rw [collapse_sp_head?] at hx
    rcases Option.map_eq_some'.1 hx with ⟨y, hy, hxy⟩
    have hyns : isSpFV y = false := dropWhile_head_not hy
    by_cases hysp : isSpFV y = true
    · rw [hysp] at hyns; cases hyns
    · rw [if_neg hysp] at hxy
      have : isSpFV y = true := by rw [← hxy] at hand; rw [hand.2] at hysp ⊢; decide
      exact absurd this hysp
  | case3 d rest hd ih =>
    rw [collapse_sp, if_neg hd]
    refine noTwoSp_cons_intro ih ?_
    intro x hx hand
    have : isSpFV d = true := by rw [hand.1]; decide
    exact absurd this hd

theorem collapse_sp_id {t : Str} (h2 : noTwoSp t = true)
    (hf : '\x0c' ∉ t) (hv : '\x0b' ∉ t) : collapse_sp t = t := by
  induction t using collapse_sp.induct with
  | case1 => simp [collapse_sp]
  | case2 d rest hd ih =>
    have hdsp : d = ' ' := by
      have hne1 : d ≠ '\x0c' := fun h => hf (h ▸ List.mem_cons_self d rest)
      have hne2 : d ≠ '\x0b' := fun h => hv (h ▸ List.mem_cons_self d rest)
      have hor : (d = ' ' ∨ d = '\x0c') ∨ d = '\x0b' := by
        simpa [isSpFV] using hd
      rcases hor with (h | h) | h
      · exact h
      · exact absurd h hne1
      · exact absurd h hne2
    have hdrop : rest.dropWhile isSpFV = rest := by
      cases rest with
      | nil => rfl
      | cons e r2 =>
        have he1 : e ≠ ' ' := by
          intro he
          rw [hdsp, he] at h2
          simp [noTwoSp] at h2
        have he2 : e ≠ '\x0c' := fun h => hf (h ▸ List.mem_cons_of_mem _ (List.mem_cons_self e r2))
        have he3 : e ≠ '\x0b' := fun h => hv (h ▸ List.mem_cons_of_mem _ (List.mem_cons_self e r2))
        rw [List.dropWhile_cons, if_neg]
        simp [isSpFV, he1, he2, he3]
    rw [collapse_sp, if_pos hd, hdrop, hdsp]
    rw [hdrop] at ih
    rw [ih (noTwoSp_cons h2) (fun h => hf (List.mem_cons_of_mem _ h))
      (fun h => hv (List.mem_cons_of_mem _ h))]
  | case3 d rest hd ih =>
    rw [collapse_sp, if_neg hd]
    rw [ih (noTwoSp_cons h2) (fun h => hf (List.mem_cons_of_mem _ h))
      (fun h => hv (List.mem_cons_of_mem _ h))]

theorem collapse_nl_head? (t : Str) : (collapse_nl t).head? = t.head? := by
  cases t with
  | nil => simp [collapse_nl]
  | cons c rest =>
    rw [collapse_nl]
    by_cases h : c == '\n'
    · rw [if_pos h]
      have hc : c = '\n' := eq_of_beq h
      by_cases h2 : (rest.takeWhile (· == '\n')).length ≥ 2 <;>
        simp [h2, List.head?_append, hc]
    · rw [if_neg h]; simp

theorem mem_collapse_nl {t : Str} : ∀ c ∈ collapse_nl t, c ∈ t ∨ c = '\n' := by
  induction t using collapse_nl.induct with
  | case1 => simp [collapse_nl]
  | case2 d rest hd ih =>
    intro c hc
    rw [collapse_nl, if_pos hd] at hc
    rcases List.mem_append.1 hc with hc | hc
    · right
      by_cases h2 : (rest.takeWhile (· == '\n')).length ≥ 2
      · rw [if_pos h2] at hc
        rcases List.mem_cons.1 hc with h | h
        · exact h
        · simpa using h
      · rw [if_neg h2] at hc
        rcases List.mem_cons.1 hc with h | h
        · exact h
        · have h4 := List.mem_takeWhile_imp (p := fun z => z == '\n') (x := c) h
          exact eq_of_beq h4
    · rcases ih c hc with h2 | h2
      · left; exact List.mem_cons_of_mem _ ((List.dropWhile_suffix _).subset h2)
      · right; exact h2
  | case3 d rest hd ih =>
    intro c hc
    rw [collapse_nl, if_neg hd] at hc
    rcases List.mem_cons.1 hc with hc | hc
    · left; simp [hc]
    · rcases ih c hc with h2 | h2
      · left; exact List.mem_cons_of_mem _ h2
      · right; exact h2

theorem noTwoSp_head {a : Char} {t : Str} (h : noTwoSp (a :: t) = true) :
    ∀ x ∈ t.head?, ¬(a = ' ' ∧ x = ' ') := by
  intro x hx hand
  cases t with
  | nil => simp at hx
  | cons b r =>
    simp only [List.head?_cons, Option.mem_def, Option.some.injEq] at hx
    rw [← hx] at hand
    simp [noTwoSp, hand.1, hand.2] at h

theorem nl_block_append {b X : Str} (hb : ∀ x ∈ b, x = '\n')
    (hX : noTwoSp X = true) : noTwoSp (b ++ X) = true := by
  induction b with
  | nil => exact hX
  | cons a b2 ih =>
    have ha : a = '\n' := hb a (List.mem_cons_self _ _)
    refine noTwoSp_cons_intro (ih fun x hx => hb x (List.mem_cons_of_mem _ hx)) ?_
    intro x hx hand
    rw [ha] at hand
    exact absurd hand.1 (by decide)

theorem noTwoSp_collapse_nl {t : Str} (h : noTwoSp t = true) :
    noTwoSp (collapse_nl t) = true := by
  induction t using collapse_nl.induct with
  | case1 => simp [collapse_nl, noTwoSp]
  | case2 d rest hd ih =>
    rw [collapse_nl, if_pos hd]
    have hrest2 : noTwoSp (rest.dropWhile (· == '\n')) = true := by
      obtain ⟨p, hp⟩ := List.dropWhile_suffix (l := rest) (· == '\n')
      exact noTwoSp_append_right (hp ▸ noTwoSp_cons h)
    refine nl_block_append ?_ (ih hrest2)
    intro x hx
    by_cases h2 : (rest.takeWhile (· == '\n')).length ≥ 2
    · rw [if_pos h2] at hx
      rcases List.mem_cons.1 hx with h3 | h3
      · exact h3
      · simpa using h3
    · rw [if_neg h2] at hx
      rcases List.mem_cons.1 hx with h3 | h3
      · exact h3
      · have h4 := List.mem_takeWhile_imp (p := fun z => z == '\n') (x := x) h3
        exact eq_of_beq h4
  | case3 d rest hd ih =>
    rw [collapse_nl, if_neg hd]
    refine noTwoSp_cons_intro (ih (noTwoSp_cons h)) ?_
    intro x hx
    rw [collapse_nl_head?] at hx
    exact noTwoSp_head h x hx

theorem noRun3NL_nl_cons {X : Str} (hh : ∀ x ∈ X.head?, x ≠ '\n')
    (hX : noRun3NL X = true) : noRun3NL ('\n' :: X) = true := by
  cases X with
  | nil => rfl
  | cons x xs =>
    cases xs with
    | nil => rfl
    | cons y r =>
      have hx : x ≠ '\n' := hh x (by simp)
      simp only [noRun3NL, Bool.and_eq_true, hX, and_true]
      simp [hx]

theorem noRun3NL_nl2_cons {X : Str} (hh : ∀ x ∈ X.head?, x ≠ '\n')
    (hX : noRun3NL X = true) : noRun3NL ('\n' :: '\n' :: X) = true := by
  cases X with
  | nil => rfl
  | cons x xs =>
    have hx : x ≠ '\n' := hh x (by simp)
    simp only [noRun3NL, Bool.and_eq_true]
    constructor
    · simp [hx]
    · exact noRun3NL_nl_cons hh hX

theorem noRun3NL_other_cons {c : Char} {X : Str} (hc : c ≠ '\n')
    (hX : noRun3NL X = true) : noRun3NL (c :: X) = true := by
  cases X with
  | nil => rfl
  | cons x xs =>
    cases xs with
    | nil => rfl
    | cons y r =>
      simp only [noRun3NL, Bool.and_eq_true, hX, and_true]
      simp [hc]

theorem noRun3NL_collapse_nl (t : Str) : noRun3NL (collapse_nl t) = true := by
  induction t using collapse_nl.induct with
  | case1 => simp [collapse_nl, noRun3NL]
  | case2 d rest hd ih =>
    rw [collapse_nl, if_pos hd]
    have hhead : ∀ x ∈ (collapse_nl (rest.dropWhile (· == '\n'))).head?, x ≠ '\n' := by
      intro x hx
      rw [collapse_nl_head?] at hx
      have := dropWhile_head_not hx
      simpa using this
    by_cases h2 : (rest.takeWhile (· == '\n')).length ≥ 2
    · rw [if_pos h2]
      exact noRun3NL_nl2_cons hhead ih
    · rw [if_neg h2]
      rcases hrun : rest.takeWhile (· == '\n') with _ | ⟨x, xs⟩
      · exact noRun3NL_nl_cons hhead ih
      · have hx4 := List.mem_takeWhile_imp (p := fun z => z == '\n') (x := x)
          (hrun ▸ List.mem_cons_self x xs)
        have hx : x = '\n' := eq_of_beq hx4
        have hxs : xs = [] := by
          cases xs with
          | nil => rfl
          | cons y ys => rw [hrun] at h2; simp at h2
        rw [hx, hxs]
        exact noRun3NL_nl2_cons hhead ih
  | case3 d rest hd ih =>
    rw [collapse_nl, if_neg hd]
    exact noRun3NL_other_cons (by simpa using hd) ih

theorem collapse_nl_id {t : Str} (h : noRun3NL t = true) : collapse_nl t = t := by
  induction t using collapse_nl.induct with
  | case1 => simp [collapse_nl]
  | case2 d rest hd ih =>
    have hd2 : d = '\n' := eq_of_beq hd
    have hrun : ¬((rest.takeWhile (· == '\n')).length ≥ 2) := by
      intro hge
      rcases hr : rest.takeWhile (· == '\n') with _ | ⟨x, xs⟩
      · rw [hr] at hge; simp at hge
      · rcases xs with _ | ⟨y, ys⟩
        · rw [hr] at hge; simp at hge
        · have hx4 := List.mem_takeWhile_imp (p := fun z => z == '\n') (x := x)
            (hr ▸ List.mem_cons_self x (y :: ys))
          have hx : x = '\n' := eq_of_beq hx4
          have hy4 := List.mem_takeWhile_imp (p := fun z => z == '\n') (x := y)
            (hr ▸ List.mem_cons_of_mem x (List.mem_cons_self y ys))
          have hy : y = '\n' := eq_of_beq hy4
          obtain ⟨s, hs⟩ := (List.takeWhile_prefix (l := rest) (· == '\n'))
          rw [hr] at hs
          rw [hd2, ← hs, hx, hy] at h
          simp [noRun3NL] at h
    rw [collapse_nl, if_pos hd, if_neg hrun]
    have hsplit := List.takeWhile_append_dropWhile (p := (· == '\n')) (l := rest)
    have hrest2 : noRun3NL (rest.dropWhile (· == '\n')) = true := by
      obtain ⟨p, hp⟩ := List.dropWhile_suffix (l := rest) (· == '\n')
      exact noRun3NL_append_right (hp ▸ noRun3NL_cons h)
    rw [ih hrest2, hd2]
    simp only [List.cons_append, hsplit]
  | case3 d rest hd ih =>
    rw [collapse_nl, if_neg hd, ih (noRun3NL_cons h)]

theorem lstrip_suffix (t : Str) : lstrip t <:+ t := List.dropWhile_suffix _

theorem rstrip_front (t : Str) : rstrip t <+: t := by
  have h : (t.reverse.dropWhile isPyWS) <:+ t.reverse := List.dropWhile_suffix _
  have h2 : ((t.reverse.dropWhile isPyWS).reverse).reverse <:+ t.reverse := by
    simpa using h
  exact List.reverse_suffix.1 h2

theorem noTwoSp_of_suffix {l m : Str} (h : l <:+ m) (hm : noTwoSp m = true) :
    noTwoSp l = true := by
  obtain ⟨p, hp⟩ := h
  exact noTwoSp_append_right (hp ▸ hm)

theorem noTwoSp_of_prefix {l m : Str} (h : l <+: m) (hm : noTwoSp m = true) :
    noTwoSp l = true := by
  obtain ⟨s, hs⟩ := h
  exact noTwoSp_append_left (hs ▸ hm)

theorem noRun3NL_of_suffix {l m : Str} (h : l <:+ m) (hm : noRun3NL m = true) :
    noRun3NL l = true := by
  obtain ⟨p, hp⟩ := h
  exact noRun3NL_append_right (hp ▸ hm)

theorem noRun3NL_of_prefix {l m : Str} (h : l <+: m) (hm : noRun3NL m = true) :
    noRun3NL l = true := by
  obtain ⟨s, hs⟩ := h
  exact noRun3NL_append_left (hs ▸ hm)

theorem strip_subset (t : Str) : strip t ⊆ t :=
  fun _ h => (lstrip_suffix t).subset ((rstrip_front (lstrip t)).subset h)

theorem strip_noTwoSp {t : Str} (h : noTwoSp t = true) : noTwoSp (strip t) = true :=
  noTwoSp_of_prefix (rstrip_front _) (noTwoSp_of_suffix (lstrip_suffix t) h)

theorem strip_noRun3NL {t : Str} (h : noRun3NL t = true) : noRun3NL (strip t) = true :=
  noRun3NL_of_prefix (rstrip_front _) (noRun3NL_of_suffix (lstrip_suffix t) h)

theorem prefix_head? {l m : Str} (h : l <+: m) (hne : l ≠ []) : l.head? = m.head? := by
  obtain ⟨s, hs⟩ := h
  rw [← hs, List.head?_append]
  cases l with
  | nil => exact absurd rfl hne
  | cons a r => simp

theorem strip_head {t : Str} : ∀ c ∈ (strip t).head?, isPyWS c = false := by
  intro c hc
  rcases eq_or_ne (strip t) [] with h | h
  · rw [h] at hc; simp at hc
  · rw [strip] at hc h
    rw [prefix_head? (rstrip_front (lstrip t)) h] at hc
    exact dropWhile_head_not hc

theorem strip_getLast {t : Str} : ∀ c ∈ (strip t).getLast?, isPyWS c = false := by
  intro c hc
  rw [strip, rstrip, List.getLast?_reverse] at hc
  exact dropWhile_head_not hc

theorem lstrip_id {t : Str} (h : ∀ c ∈ t.head?, isPyWS c = false) : lstrip t = t := by
  cases t with
  | nil => rfl
  | cons a r =>
    rw [lstrip, List.dropWhile_cons, if_neg]
    rw [h a (by simp)]
    simp

theorem rstrip_id {t : Str} (h : ∀ c ∈ t.getLast?, isPyWS c = false) : rstrip t = t := by
  rw [rstrip]
  have h2 : ∀ c ∈ t.reverse.head?, isPyWS c = false := by
    intro c hc
    rw [List.head?_reverse] at hc
    exact h c hc
  cases hr : t.reverse with
  | nil =>
    have : t = [] := by simpa using congrArg List.reverse hr
    simp [this]
  | cons a r =>
    rw [List.dropWhile_cons, if_neg]
    · rw [← hr]; simp
    · rw [hr] at h2
      rw [h2 a (by simp)]
      simp

theorem strip_id {t : Str} (hh : ∀ c ∈ t.head?, isPyWS c = false)
    (hl : ∀ c ∈ t.getLast?, isPyWS c = false) : strip t = t := by
  rw [strip, lstrip_id hh, rstrip_id hl]

theorem mem_map_cr {c : Char} {t : Str} (h : c ∈ map_cr t) : c ∈ t ∨ c = '\n' := by
  rcases List.mem_map.1 h with ⟨d, hd, hdc⟩
  by_cases hdr : d == '\r'
  · right; rw [← hdc]; simp [hdr]
  · left; rw [← hdc]; simp only [if_neg hdr]; exact hd

theorem not_cr_map_cr (t : Str) : '\r' ∉ map_cr t := by
  intro h
  rcases List.mem_map.1 h with ⟨d, _, hdc⟩
  by_cases hdr : d == '\r'
  · rw [if_pos hdr] at hdc; cases hdc
  · rw [if_neg hdr] at hdc
    rw [hdc] at hdr
    simp at hdr

theorem mem_map_tab {c : Char} {t : Str} (h : c ∈ map_tab t) : c ∈ t ∨ c = ' ' := by
  rcases List.mem_map.1 h with ⟨d, hd, hdc⟩
  by_cases hdr : d == '\t'
  · right; rw [← hdc]; simp [hdr]
  · left; rw [← hdc]; simp only [if_neg hdr]; exact hd

theorem not_tab_map_tab (t : Str) : '\t' ∉ map_tab t := by
  intro h
  rcases List.mem_map.1 h with ⟨d, _, hdc⟩
  by_cases hdr : d == '\t'
  · rw [if_pos hdr] at hdc; cases hdc
  · rw [if_neg hdr] at hdc
    rw [hdc] at hdr
    simp at hdr

theorem map_cr_id {t : Str} (h : '\r' ∉ t) : map_cr t = t := by
  induction t with
  | nil => rfl
  | cons a r ih =>
    rw [map_cr, List.map_cons]
    have ha : ¬(a == '\r') = true := by
      intro hb
      exact h (by rw [eq_of_beq hb] at *; exact List.mem_cons_self _ _)
    rw [if_neg ha]
    have := ih (fun hm => h (List.mem_cons_of_mem _ hm))
    rw [map_cr] at this
    rw [this]

theorem map_tab_id {t : Str} (h : '\t' ∉ t) : map_tab t = t := by
  induction t with
  | nil => rfl
  | cons a r ih =>
    rw [map_tab, List.map_cons]
    have ha : ¬(a == '\t') = true := by
      intro hb
      exact h (by rw [eq_of_beq hb] at *; exact List.mem_cons_self _ _)
    rw [if_neg ha]
    have := ih (fun hm => h (List.mem_cons_of_mem _ hm))
    rw [map_tab] at this
    rw [this]

theorem replace_crlf_id {t : Str} (h : '\r' ∉ t) : replace_crlf t = t := by
  induction t using replace_crlf.induct with
  | case1 => rfl
  | case2 c => rfl
  | case3 a b rest hab ih =>
    have ha : a ≠ '\r' := fun he => h (he ▸ List.mem_cons_self _ _)
    exfalso
    rcases Bool.and_eq_true _ _ ▸ hab with ⟨h1, _⟩
    exact ha (eq_of_beq h1)
  | case4 a b rest hab ih =>
    rw [replace_crlf, if_neg hab]
    rw [ih (fun hm => h (List.mem_cons_of_mem _ hm))]

theorem normalized_nil : Normalized [] := by
  refine ⟨by simp, by simp, by simp, by simp, rfl, rfl, by simp, by simp⟩

theorem clean_text_normalized (t : Str) : Normalized (clean_text t) := by
  rw [clean_text]
  by_cases ht : t = []
  · rw [if_pos ht]; exact normalized_nil
  rw [if_neg ht]
  set u3 := map_tab (map_cr (replace_crlf t)) with hu3
  set u4 := collapse_sp u3 with hu4
  set u5 := collapse_nl u4 with hu5
  have hcr3 : '\r' ∉ u3 := by
    intro h
    rcases mem_map_tab h with h2 | h2
    · exact not_cr_map_cr _ h2
    · cases h2
  have htab3 : '\t' ∉ u3 := not_tab_map_tab _
  have hcr4 : '\r' ∉ u4 := by
    intro h
    rcases mem_collapse_sp _ h with h2 | h2
    · exact hcr3 h2
    · cases h2
  have htab4 : '\t' ∉ u4 := by
    intro h
    rcases mem_collapse_sp _ h with h2 | h2
    · exact htab3 h2
    · cases h2
  have hff4 : '\x0c' ∉ u4 := by
    intro h
    have := collapse_sp_spfv _ h (by decide)
    cases this
  have hvt4 : '\x0b' ∉ u4 := by
    intro h
    have := collapse_sp_spfv _ h (by decide)
    cases this
  have hsp4 : noTwoSp u4 = true := noTwoSp_collapse_sp u3
  have hcr5 : '\r' ∉ u5 := by
    intro h
    rcases mem_collapse_nl _ h with h2 | h2
    · exact hcr4 h2
    · cases h2
  have htab5 : '\t' ∉ u5 := by
    intro h
    rcases mem_collapse_nl _ h with h2 | h2
    · exact htab4 h2
    · cases h2
  have hff5 : '\x0c' ∉ u5 := by
    intro h
    rcases mem_collapse_nl _ h with h2 | h2
    · exact hff4 h2
    · cases h2
  have hvt5 : '\x0b' ∉ u5 := by
    intro h
    rcases mem_collapse_nl _ h with h2 | h2
    · exact hvt4 h2
    · cases h2
  have hsp5 : noTwoSp u5 = true := noTwoSp_collapse_nl hsp4
  have hnl5 : noRun3NL u5 = true := noRun3NL_collapse_nl u4
  exact ⟨fun h => hcr5 (strip_subset _ h), fun h => htab5 (strip_subset _ h),
    fun h => hff5 (strip_subset _ h), fun h => hvt5 (strip_subset _ h),
    strip_noTwoSp hsp5, strip_noRun3NL hnl5, strip_head, strip_getLast⟩

theorem clean_text_of_normalized {t : Str} (h : Normalized t) : clean_text t = t := by
  obtain ⟨hcr, htab, hff, hvt, hsp, hnl, hhead, hlast⟩ := h
  rw [clean_text]
  by_cases ht : t = []
  · rw [if_pos ht, ht]
  rw [if_neg ht]
  rw [replace_crlf_id hcr, map_cr_id hcr, map_tab_id htab,
    collapse_sp_id hsp hff hvt, collapse_nl_id hnl, strip_id hhead hlast]

/-- Claim C9: the text normalizer `_clean_text` is a pure function of its input
(it is embedded as a Lean function, so purity is inherent) and is idempotent:
normalizing an already-normalized string returns it unchanged. -/
theorem clean_text_idempotent (t : Str) : clean_text (clean_text t) = clean_text t :=
  clean_text_of_normalized (clean_text_normalized t)

/-- The heading vocabulary of `SECTION_PATTERN` in
src/framework/ingest/splitters.py, with the regex alternation `methods?`,
`experiments?`, `results?`, `limitations?` and `acknowledg(e)?ments` expanded
into explicit words (greedy alternatives first, matching the regex engine's
preference order). -/
def VOCAB : List Str :=
  [str "abstract", str "introduction", str "related work", str "background",
   str "methods", str "method", str "methodology",
   str "experiments", str "experiment", str "results", str "result",
   str "discussion", str "conclusion", str "limitations", str "limitation",
   str "future work", str "acknowledgements", str "acknowledgments",
   str "references", str "bibliography"]

/-- Case-insensitive match of vocabulary word `w` at offset `q` of `t`
(`re.IGNORECASE`, ASCII lowering). -/
def word_matches_at (t : Str) (q : Nat) (w : Str) : Bool :=
  ((t.drop q).take w.length).map Char.toLower == w

/-- Index of the last newline in a character run, used to model where the
backtracking `\s*$` of `SECTION_PATTERN` places the match end. -/
def lastNL : Str → Option Nat
  | [] => none
  | c :: rest =>
    match lastNL rest with
    | some k => some (k + 1)
    | none => if c == '\n' then some 0 else none

/-- End position chosen by the trailing `\s*$` of `SECTION_PATTERN` when the
matched word ends at offset `q2`: greedily extend over whitespace; `$` matches
at end of text, else just before the last newline of the whitespace run; no
such position means no match (MULTILINE semantics). -/
def tail_end (t : Str) (q2 : Nat) : Option Nat :=
  let run := (t.drop q2).takeWhile isPyWS
  if q2 + run.length == t.length then some (q2 + run.length)
  else
    match lastNL run with
    | some k => some (q2 + k)
    | none => none

/-- Attempt of `SECTION_PATTERN` anchored at position `p` of `t`: `^` requires
start-of-text or a preceding newline (MULTILINE); `\s*` greedily consumes the
whitespace run (a vocabulary word never starts with whitespace, so no shorter
consumption can succeed); then one vocabulary word followed by a valid `\s*$`
tail.  At a given position at most one vocabulary word can pass the tail test,
so alternation order does not matter.  Returns the match span `(start, end)`. -/
def match_at (t : Str) (p : Nat) : Option (Nat × Nat) :=
  if p == 0 || t.getD (p - 1) ' ' == '\n' then
    let q0 := p + ((t.drop p).takeWhile isPyWS).length
    VOCAB.findSome? fun w =>
      if word_matches_at t q0 w then (tail_end t (q0 + w.length)).map fun e => (p, e)
      else none
  else none

/-- First match of `SECTION_PATTERN` at or after position `pos` (the regex
engine's left-to-right scan). -/
def find_from (t : Str) (pos : Nat) : Option (Nat × Nat) :=
  (List.range' pos (t.length + 1 - pos)).findSome? (match_at t)

/-- Fueled scan loop of `re.finditer`: report a match, continue scanning at its
end.  Every match is nonempty so `t.length + 1` steps of fuel suffice. -/
def find_matches_go (t : Str) : Nat → Nat → List (Nat × Nat)
  | 0, _ => []
  | fuel + 1, pos =>
    match find_from t pos with
    | none => []
    | some m => m :: find_matches_go t fuel m.2

/-- All non-overlapping matches of `SECTION_PATTERN` in `t`, in scan order:
`list(SECTION_PATTERN.finditer(text))` in `_split_paper_sections`. -/
def find_matches (t : Str) : List (Nat × Nat) := find_matches_go t (t.length + 1) 0

/-- The slice `t[a:b]` of Python. -/
def sliceStr (t : Str) (a b : Nat) : Str := (t.take b).drop a

/-- A section produced by `_split_paper_sections`: the trimmed heading label
and the trimmed section text. -/
structure Sec where
  label : Str
  text : Str
deriving DecidableEq, Repr

/-- The section-construction loop of `_split_paper_sections`: section `i` runs
from match `i`'s start to match `i+1`'s start (or end of text); the label is
the stripped match text (`match.group(0).strip()`), the text the stripped
slice. -/
def sections_from_matches (t : Str) : List (Nat × Nat) → List Sec
  | [] => []
  | (s, e) :: rest =>
    let nxt := match rest with
      | [] => t.length
      | (s2, _) :: _ => s2
    ⟨strip (sliceStr t s e), strip (sliceStr t s nxt)⟩ :: sections_from_matches t rest

/-- `_split_paper_sections` of src/framework/ingest/splitters.py: if the
pattern never matches, one section labeled "body" holding the whole text;
otherwise one section per match as in the source's loop. -/
def split_paper_sections (t : Str) : List Sec :=
  match find_matches t with
  | [] => [⟨str "body", t⟩]
  | ms => sections_from_matches t ms

theorem findSome?_exists {α β : Type} {f : α → Option β} {l : List α} {b : β}
    (h : l.findSome? f = some b) : ∃ a ∈ l, f a = some b := by
  induction l with
  | nil => simp [List.findSome?] at h
  | cons a r ih =>
    rw [List.findSome?_cons] at h
    rcases hfa : f a with _ | v
    · rw [hfa] at h
      rcases ih h with ⟨x, hx, hfx⟩
      exact ⟨x, List.mem_cons_of_mem _ hx, hfx⟩
    · rw [hfa] at h
      simp only [] at h
      exact ⟨a, List.mem_cons_self _ _, by rw [hfa]; exact h⟩

theorem lastNL_lt {run : Str} {k : Nat} (h : lastNL run = some k) : k < run.length := by
  induction run generalizing k with
  | nil => simp [lastNL] at h
  | cons c r ih =>
    rw [lastNL] at h
    rcases hr : lastNL r with _ | k2
    · rw [hr] at h
      by_cases hc : c == '\n'
      · rw [if_pos hc] at h
        injection h with h
        rw [← h]; simp
      · rw [if_neg hc] at h; cases h
    · rw [hr] at h
      injection h with h
      have := ih hr
      rw [← h]
      simpa using this

theorem tail_end_bounds {t : Str} {q2 e : Nat} (h : tail_end t q2 = some e) :
    q2 ≤ e ∧ e ≤ t.length := by
  rw [tail_end] at h
  have hrun : ((t.drop q2).takeWhile isPyWS).length ≤ t.length - q2 := by
    calc ((t.drop q2).takeWhile isPyWS).length ≤ (t.drop q2).length :=
          (List.takeWhile_prefix _).length_le
      _ = t.length - q2 := by simp
  by_cases hb : (q2 + ((t.drop q2).takeWhile isPyWS).length == t.length) = true
  · rw [if_pos hb] at h
    injection h with h
    have := eq_of_beq hb
    omega
  · rw [if_neg hb] at h
    rcases hnl : lastNL ((t.drop q2).takeWhile isPyWS) with _ | k
    · rw [hnl] at h; cases h
    · rw [hnl] at h
      injection h with h
      have := lastNL_lt hnl
      omega

theorem vocab_ne_nil : ∀ w ∈ VOCAB, w ≠ [] := by decide

theorem match_at_bounds {t : Str} {p : Nat} {m : Nat × Nat}
    (h : match_at t p = some m) : m.1 = p ∧ p < m.2 ∧ m.2 ≤ t.length := by
  rw [match_at] at h
  by_cases hl : (p == 0 || t.getD (p - 1) ' ' == '\n') = true
  · rw [if_pos hl] at h
    rcases findSome?_exists h with ⟨w, hw, hfw⟩
    by_cases hwm : word_matches_at t (p + ((t.drop p).takeWhile isPyWS).length) w = true
    · rw [if_pos hwm] at hfw
      rcases Option.map_eq_some'.1 hfw with ⟨e, he, hem⟩
      rcases tail_end_bounds he with ⟨h1, h2⟩
      have hwlen : 0 < w.length := by
        have := vocab_ne_nil w hw
        cases w with
        | nil => exact absurd rfl this
        | cons a r => simp
      rw [← hem]
      exact ⟨rfl, by omega, h2⟩
    · rw [if_neg hwm] at hfw; cases hfw
  · rw [if_neg hl] at h; cases h

theorem find_from_bounds {t : Str} {pos : Nat} {m : Nat × Nat}
    (h : find_from t pos = some m) : pos ≤ m.1 ∧ m.1 < m.2 ∧ m.2 ≤ t.length := by
  rcases findSome?_exists h with ⟨p, hp, hmp⟩
  rcases match_at_bounds hmp with ⟨h1, h2, h3⟩
  rcases List.mem_range'_1.1 hp with ⟨h4, _⟩
  exact ⟨by omega, by omega, h3⟩

theorem find_matches_go_spec (t : Str) : ∀ fuel pos,
    (∀ m ∈ find_matches_go t fuel pos, pos ≤ m.1 ∧ m.1 < m.2 ∧ m.2 ≤ t.length) ∧
      List.Chain' (fun a b : Nat × Nat => a.2 ≤ b.1) (find_matches_go t fuel pos) := by
  intro fuel
  induction fuel with
  | zero => intro pos; exact ⟨by simp [find_matches_go], by simp [find_matches_go]⟩
  | succ n ih =>
    intro pos
    rw [find_matches_go]
    rcases hf : find_from t pos with _ | m
    · exact ⟨by simp, by simp⟩
    · rcases find_from_bounds hf with ⟨h1, h2, h3⟩
      rcases ih m.2 with ⟨ihm, ihc⟩
      constructor
      · intro x hx
        rcases List.mem_cons.1 hx with hx | hx
        · rw [hx]; exact ⟨h1, h2, h3⟩
        · rcases ihm x hx with ⟨g1, g2, g3⟩
          exact ⟨by omega, g2, g3⟩
      · rw [List.chain'_cons']
        refine ⟨?_, ihc⟩
        intro y hy
        have hymem : y ∈ find_matches_go t n m.2 := by
          cases hgo : find_matches_go t n m.2 with
          | nil => rw [hgo] at hy; simp at hy
          | cons z zs =>
            rw [hgo] at hy
            simp only [List.head?_cons, Option.mem_def, Option.some.injEq] at hy
            rw [← hy]
            exact List.mem_cons_self _ _
        exact (ihm y hymem).1

theorem find_matches_spec (t : Str) :
    (∀ m ∈ find_matches t, m.1 < m.2 ∧ m.2 ≤ t.length) ∧
      List.Chain' (fun a b : Nat × Nat => a.2 ≤ b.1) (find_matches t) := by
  rcases find_matches_go_spec t (t.length + 1) 0 with ⟨h1, h2⟩
  exact ⟨fun m hm => ⟨(h1 m hm).2.1, (h1 m hm).2.2⟩, h2⟩

/-- Consecutive slices of `t` between adjacent bounds. -/
def consec_slices (t : Str) : List Nat → List Str
  | a :: b :: rest => sliceStr t a b :: consec_slices t (b :: rest)
  | _ => []

theorem slice_glue {t : Str} {a b c : Nat} (hab : a ≤ b) (hbc : b ≤ c)
    (hc : c ≤ t.length) : sliceStr t a b ++ sliceStr t b c = sliceStr t a c := by
  have hsplit : t.take c = t.take b ++ (t.take c).drop b := by
    have h1 : (t.take c).take b = t.take b := by
      rw [List.take_take]
      congr 1
      omega
    calc t.take c = (t.take c).take b ++ (t.take c).drop b :=
          (List.take_append_drop _ _).symm
      _ = t.take b ++ (t.take c).drop b := by rw [h1]
  have hlen : a ≤ (t.take b).length := by
    simp only [List.length_take]
    omega
  rw [sliceStr, sliceStr, sliceStr]
  conv_rhs => rw [hsplit]
  rw [List.drop_append_of_le_length hlen]

/-- The final bound of a nonempty bound list. -/
def lastB (a : Nat) : List Nat → Nat
  | [] => a
  | b :: bs => lastB b bs

theorem lastB_concat (a x : Nat) : ∀ l : List Nat, lastB a (l ++ [x]) = x := by
  intro l
  induction l generalizing a with
  | nil => rfl
  | cons b bs ih => exact ih b

theorem chain_le_lastB : ∀ (bs : List Nat) (a : Nat),
    List.Chain' (· ≤ ·) (a :: bs) → a ≤ lastB a bs := by
  intro bs
  induction bs with
  | nil => intro a _; exact le_refl a
  | cons b bs2 ih =>
    intro a hch
    rw [List.chain'_cons] at hch
    have h2 := ih b hch.2
    exact le_trans hch.1 h2

theorem consec_slices_flatten (t : Str) : ∀ (bs : List Nat) (a : Nat),
    List.Chain' (· ≤ ·) (a :: bs) → lastB a bs ≤ t.length →
    (consec_slices t (a :: bs)).flatten = sliceStr t a (lastB a bs) := by
  intro bs
  induction bs with
  | nil =>
    intro a _ _
    have hle : (t.take a).length ≤ a := by simp
    simp [consec_slices, lastB, sliceStr, List.drop_eq_nil_of_le hle]
  | cons b bs2 ih =>
    intro a hch hlast
    rw [List.chain'_cons] at hch
    have hlb : lastB a (b :: bs2) = lastB b bs2 := rfl
    rw [consec_slices, List.flatten_cons, hlb]
    rw [ih b hch.2 (hlb ▸ hlast)]
    exact slice_glue hch.1 (chain_le_lastB bs2 b hch.2) (hlb ▸ hlast)

theorem sections_text_slices (t : Str) : ∀ (ms : List (Nat × Nat)),
    (sections_from_matches t ms).map Sec.text =
      (consec_slices t (ms.map Prod.fst ++ [t.length])).map strip := by
  intro ms
  induction ms with
  | nil => rfl
  | cons m rest ih =>
    cases rest with
    | nil => rfl
    | cons m2 r2 =>
      show strip (sliceStr t m.1 m2.1) :: _ = strip (sliceStr t m.1 m2.1) :: _
      rw [List.cons_inj_right]
      exact ih

theorem sections_from_matches_length (t : Str) : ∀ (ms : List (Nat × Nat)),
    (sections_from_matches t ms).length = ms.length := by
  intro ms
  induction ms with
  | nil => rfl
  | cons m rest ih =>
    rcases m with ⟨s, e⟩
    rw [sections_from_matches.eq_def]
    simpa using ih

theorem chain_starts {L : Nat} : ∀ (ms : List (Nat × Nat)),
    (∀ m ∈ ms, m.1 < m.2 ∧ m.2 ≤ L) →
    List.Chain' (fun a b : Nat × Nat => a.2 ≤ b.1) ms →
    List.Chain' (· < ·) (ms.map Prod.fst ++ [L]) := by
  intro ms
  induction ms with
  | nil => intro _ _; simp
  | cons m rest ih =>
    intro hb hch
    rw [List.chain'_cons'] at hch
    rw [List.map_cons, List.cons_append, List.chain'_cons']
    constructor
    · intro y hy
      rcases hb m (List.mem_cons_self _ _) with ⟨h1, h2⟩
      cases rest with
      | nil =>
        simp only [List.map_nil, List.nil_append, List.head?_cons,
          Option.mem_def, Option.some.injEq] at hy
        omega
      | cons m2 r2 =>
        simp only [List.map_cons, List.cons_append, List.head?_cons,
          Option.mem_def, Option.some.injEq] at hy
        have h3 : m.2 ≤ m2.1 := hch.1 m2 (by simp)
        omega
    · exact ih (fun x hx => hb x (List.mem_cons_of_mem _ hx)) hch.2

/-- Claim C8: for every text in which the section pattern finds zero headings,
`_split_paper_sections` returns exactly one section labeled "body" whose text
is the whole input text. -/
theorem split_paper_sections_no_headings {t : Str} (h : find_matches t = []) :
    split_paper_sections t = [⟨str "body", t⟩] := by
  rw [split_paper_sections.eq_def, h]

/-- Witness for C8 at a concrete heading-free text. -/
theorem split_paper_sections_no_headings_check :
    find_matches (str "hello world") = [] ∧
      split_paper_sections (str "hello world") = [⟨str "body", str "hello world"⟩] :=
  ⟨by decide, split_paper_sections_no_headings (by decide)⟩

/-- Claim C5 as stated is false: in "Title\nabstract\nhi" the heading match
starts after the leading "Title\n", and that preceding text is dropped, not
folded into the first section's span (the character T appears in the input but
in no returned section text). -/
theorem split_paper_sections_drops_leading :
    'T' ∈ str "Title\nabstract\nhi" ∧
      ∀ s ∈ split_paper_sections (str "Title\nabstract\nhi"), 'T' ∉ s.text := by
  decide

/-- Claim C5 amended: when at least one heading is matched, the match starts
(with the text length appended) form a strictly increasing bound sequence; the
slices between consecutive bounds are non-overlapping, contiguous, and their
concatenation is exactly the text from the first match's start to the end (so
text preceding the first match start is dropped); the returned sections are
one per match, each section's text being the stripped slice between its match
start and the next. -/
theorem split_paper_sections_spans {t : Str} (h : find_matches t ≠ []) :
    List.Chain' (· < ·) ((find_matches t).map Prod.fst ++ [t.length]) ∧
      (consec_slices t ((find_matches t).map Prod.fst ++ [t.length])).flatten
        = t.drop (((find_matches t).map Prod.fst).headD 0) ∧
      (split_paper_sections t).map Sec.text
        = (consec_slices t ((find_matches t).map Prod.fst ++ [t.length])).map strip ∧
      (split_paper_sections t).length = (find_matches t).length := by
  rcases find_matches_spec t with ⟨hb, hch⟩
  have hchain : List.Chain' (· < ·) ((find_matches t).map Prod.fst ++ [t.length]) :=
    chain_starts (find_matches t) hb hch
  refine ⟨hchain, ?_, ?_, ?_⟩
  · rcases hms : find_matches t with _ | ⟨m, rest⟩
    · exact absurd hms h
    · rw [hms] at hchain
      simp only [List.map_cons, List.cons_append] at hchain ⊢
      have hle : List.Chain' (· ≤ ·) (m.1 :: (rest.map Prod.fst ++ [t.length])) :=
        hchain.imp (fun a b hab => le_of_lt hab)
      have hlastb : lastB m.1 (rest.map Prod.fst ++ [t.length]) = t.length :=
        lastB_concat _ _ _
      rw [consec_slices_flatten t _ m.1 hle (by rw [hlastb]), hlastb]
      simp only [List.headD_cons]
      rw [sliceStr, List.take_length]
  · rcases hms : find_matches t with _ | ⟨m, rest⟩
    · exact absurd hms h
    · rw [split_paper_sections.eq_def, hms]
      exact sections_text_slices t (m :: rest)
  · rcases hms : find_matches t with _ | ⟨m, rest⟩
    · exact absurd hms h
    · rw [split_paper_sections.eq_def, hms]
      exact sections_from_matches_length t (m :: rest)

/-- Witness for the amended C5 at a concrete text with one heading. -/
theorem split_paper_sections_spans_check :
    find_matches (str "abstract\nhi") ≠ [] ∧
      (List.Chain' (· < ·)
          ((find_matches (str "abstract\nhi")).map Prod.fst ++ [(str "abstract\nhi").length]) ∧
        (consec_slices (str "abstract\nhi")
            ((find_matches (str "abstract\nhi")).map Prod.fst ++ [(str "abstract\nhi").length])).flatten
          = (str "abstract\nhi").drop (((find_matches (str "abstract\nhi")).map Prod.fst).headD 0) ∧
        (split_paper_sections (str "abstract\nhi")).map Sec.text
          = (consec_slices (str "abstract\nhi")
              ((find_matches (str "abstract\nhi")).map Prod.fst ++ [(str "abstract\nhi").length])).map strip ∧
        (split_paper_sections (str "abstract\nhi")).length
          = (find_matches (str "abstract\nhi")).length) :=
  ⟨by decide, split_paper_sections_spans (by decide)⟩

/-- Modelled from the spec: the fallback-separator hierarchy of the Recursive
Chunker (spec 4.3), coarsest to finest: paragraph break, line break,
sentence-ending punctuation, word boundary, and the empty string as last
resort meaning character-level split.  The splitter itself is library code
(`RecursiveCharacterTextSplitter`) not present under src/. -/
def SEPARATORS : List Str := [str "\n\n", str "\n", str ". ", str " ", []]

/-- Scanner for separator-keeping splitting: a piece is closed as soon as the
accumulated text ends with the separator, so each piece except the last ends
with the separator and the pieces concatenate back to the input. -/
def split_keep_sep_go (sep : Str) : Str → Str → List Str
  | cur, [] => [cur]
  | cur, c :: rest =>
    if sep.isSuffixOf (cur ++ [c]) then (cur ++ [c]) :: split_keep_sep_go sep [] rest
    else split_keep_sep_go sep (cur ++ [c]) rest

/-- Modelled from the spec: split `t` into candidate pieces on `sep` (keeping
the separator so that pieces concatenate to `t`); the empty separator means
character-level split. -/
def split_keep_sep (sep : Str) (t : Str) : List Str :=
  if sep = [] then t.map (fun c => [c])
  else split_keep_sep_go sep [] t

theorem split_keep_sep_go_flatten (sep : Str) :
    ∀ (rest cur : Str), (split_keep_sep_go sep cur rest).flatten = cur ++ rest := by
  intro rest
  induction rest with
  | nil => intro cur; simp [split_keep_sep_go]
  | cons c r ih =>
    intro cur
    rw [split_keep_sep_go]
    by_cases h : sep.isSuffixOf (cur ++ [c])
    · rw [if_pos h, List.flatten_cons, ih []]
      simp
    · rw [if_neg h, ih (cur ++ [c])]
      simp

theorem split_keep_sep_flatten (sep : Str) (t : Str) :
    (split_keep_sep sep t).flatten = t := by
  rw [split_keep_sep]
  by_cases h : sep = []
  · rw [if_pos h]
    induction t with
    | nil => rfl
    | cons c r ih => simpa using ih
  · rw [if_neg h]
    exact split_keep_sep_go_flatten sep t []

theorem split_keep_sep_nil_len {t : Str} :
    ∀ p ∈ split_keep_sep [] t, p.length = 1 := by
  intro p hp
  rw [split_keep_sep, if_pos rfl] at hp
  rcases List.mem_map.1 hp with ⟨c, _, hc⟩
  rw [← hc]
  rfl

/-- The trailing `ov` characters of a chunk, carried forward as overlap seed. -/
def take_right (ov : Nat) (l : Str) : Str := l.drop (l.length - ov)

/-- Modelled from the spec: merge consecutive candidate pieces into chunks
while the running length stays within `size`; when a merge would exceed
`size`, finalize the current chunk and start the next one from the trailing
`ov` characters of it (dropping the seed when even seed plus piece would
exceed `size`, keeping the size guarantee of spec 4.3 / 8). -/
def merge_loop (size ov : Nat) : Str → List Str → List Str
  | acc, [] => if acc = [] then [] else [acc]
  | acc, p :: ps =>
    if acc.length + p.length ≤ size then merge_loop size ov (acc ++ p) ps
    else
      (if acc = [] then [] else [acc]) ++
        merge_loop size ov
          (if (take_right ov acc).length + p.length ≤ size then take_right ov acc ++ p else p) ps

/-- Modelled from the spec: walk the candidate pieces, accumulating pieces
that fit within `size`; an oversized piece flushes the accumulated run through
the merge and is recursed into with the next finer separator (`recur`). -/
def proc_pieces (size ov : Nat) (recur : Str → List Str) (goods : List Str) :
    List Str → List Str
  | [] => merge_loop size ov [] goods
  | p :: ps =>
    if p.length ≤ size then proc_pieces size ov recur (goods ++ [p]) ps
    else merge_loop size ov [] goods ++ recur p ++ proc_pieces size ov recur [] ps

/-- Modelled from the spec: the recursive splitting pass over the separator
hierarchy; with no separators left the text is an atomic token and is emitted
unsplit. -/
def split_rec (size ov : Nat) : List Str → Str → List Str
  | [], t => if t = [] then [] else [t]
  | sep :: rest, t =>
    proc_pieces size ov (fun s => split_rec size ov rest s) [] (split_keep_sep sep t)

/-- Modelled from the spec: `split(text, chunk_size, chunk_overlap)` of the
Recursive Chunker (spec 4.3), over the full separator hierarchy. -/
def split_text (size ov : Nat) (t : Str) : List Str :=
  split_rec size ov SEPARATORS t

theorem merge_loop_le {size ov : Nat} : ∀ (goods : List Str) (acc : Str),
    acc.length ≤ size → (∀ p ∈ goods, p.length ≤ size) →
    ∀ c ∈ merge_loop size ov acc goods, c.length ≤ size := by
  intro goods
  induction goods with
  | nil =>
    intro acc hacc _ c hc
    rw [merge_loop] at hc
    by_cases h : acc = []
    · rw [if_pos h] at hc; simp at hc
    · rw [if_neg h] at hc
      rcases List.mem_cons.1 hc with hc | hc
      · rw [hc]; exact hacc
      · simp at hc
  | cons p ps ih =>
    intro acc hacc hg c hc
    have hp : p.length ≤ size := hg p (List.mem_cons_self _ _)
    have hps : ∀ q ∈ ps, q.length ≤ size := fun q hq => hg q (List.mem_cons_of_mem _ hq)
    rw [merge_loop] at hc
    by_cases h : acc.length + p.length ≤ size
    · rw [if_pos h] at hc
      exact ih (acc ++ p) (by simp; omega) hps c hc
    · rw [if_neg h] at hc
      rcases List.mem_append.1 hc with hc | hc
      · by_cases ha : acc = []
        · rw [if_pos ha] at hc; simp at hc
        · rw [if_neg ha] at hc
          rcases List.mem_cons.1 hc with hc | hc
          · rw [hc]; exact hacc
          · simp at hc
      · by_cases hs : (take_right ov acc).length + p.length ≤ size
        · rw [if_pos hs] at hc
          exact ih _ (by simp; omega) hps c hc
        · rw [if_neg hs] at hc
          exact ih _ hp hps c hc

theorem proc_pieces_le {size ov : Nat} {recur : Str → List Str} :
    ∀ (pieces goods : List Str),
    (∀ p ∈ goods, p.length ≤ size) →
    (∀ p ∈ pieces, size < p.length → ∀ c ∈ recur p, c.length ≤ size) →
    ∀ c ∈ proc_pieces size ov recur goods pieces, c.length ≤ size := by
  intro pieces
  induction pieces with
  | nil =>
    intro goods hg _ c hc
    rw [proc_pieces] at hc
    exact merge_loop_le goods [] (by simp) hg c hc
  | cons p ps ih =>
    intro goods hg hrec c hc
    rw [proc_pieces] at hc
    by_cases h : p.length ≤ size
    · rw [if_pos h] at hc
      refine ih (goods ++ [p]) ?_ (fun q hq hlq => hrec q (List.mem_cons_of_mem _ hq) hlq) c hc
      intro q hq
      rcases List.mem_append.1 hq with hq | hq
      · exact hg q hq
      · simp at hq; rw [hq]; exact h
    · rw [if_neg h] at hc
      rcases List.mem_append.1 hc with hc | hc
      · rcases List.mem_append.1 hc with hc | hc
        · exact merge_loop_le goods [] (by simp) hg c hc
        · exact hrec p (List.mem_cons_self _ _) (by omega) c hc
      · exact ih [] (by simp) (fun q hq hlq => hrec q (List.mem_cons_of_mem _ hq) hlq) c hc

theorem split_rec_le {size ov : Nat} (hsize : 1 ≤ size) :
    ∀ (seps : List Str), [] ∈ seps →
    ∀ (t : Str), ∀ c ∈ split_rec size ov seps t, c.length ≤ size := by
  intro seps
  induction seps with
  | nil => intro h; simp at h
  | cons sep rest ih =>
    intro hmem t c hc
    rw [split_rec] at hc
    by_cases hsep : sep = []
    · refine proc_pieces_le (split_keep_sep sep t) [] (by simp) ?_ c hc
      intro p hp hlp
      rw [hsep] at hp
      have := split_keep_sep_nil_len p hp
      omega
    · have hrest : [] ∈ rest := by
        rcases List.mem_cons.1 hmem with h | h
        · exact absurd h.symm hsep
        · exact h
      refine proc_pieces_le (split_keep_sep sep t) [] (by simp) ?_ c hc
      intro p _ _ c2 hc2
      exact ih hrest p c2 hc2

/-- Chunk `c` occurs in `t` at offset `off`. -/
def occursAt (t : Str) (off : Nat) (c : Str) : Prop :=
  off + c.length ≤ t.length ∧ (t.drop off).take c.length = c

/-- The chunks `cs` occur in `t` at nondecreasing offsets, all between `lo`
and `hi`: the formalization of "chunks preserve the original text order"
(overlapping chunks are allowed; only their start offsets must not go
backwards). -/
def in_order_between (t : Str) (lo hi : Nat) (cs : List Str) : Prop :=
  ∃ offs : List Nat, List.Forall₂ (fun off c => occursAt t off c) offs cs ∧
    List.Chain' (· ≤ ·) (lo :: offs ++ [hi])

theorem occursAt_refl (t : Str) : occursAt t 0 t := by
  refine ⟨by simp, ?_⟩
  simp

theorem occursAt_drop {t s : Str} {base : Nat} (h : t.drop base = s)
    (hb : base ≤ t.length) : occursAt t base s := by
  refine ⟨?_, ?_⟩
  · rw [← h, List.length_drop]
    omega
  · rw [h, List.take_of_length_le (le_refl s.length)]

theorem occursAt_trans {t s c : Str} {b o : Nat} (h1 : occursAt s o c)
    (h2 : occursAt t b s) : occursAt t (b + o) c := by
  rcases h1 with ⟨hb1, he1⟩
  rcases h2 with ⟨hb2, he2⟩
  constructor
  · omega
  · have hdd : t.drop (b + o) = (t.drop b).drop o := by
      rw [List.drop_drop]
    rw [hdd]
    have hsub : ((t.drop b).drop o).take c.length
        = (((t.drop b).take s.length).drop o).take c.length := by
      rw [List.drop_take]
      rw [List.take_take]
      congr 1
      omega
    rw [hsub, he2]
    exact he1

theorem in_order_nil {t : Str} {lo hi : Nat} (h : lo ≤ hi) :
    in_order_between t lo hi [] := by
  refine ⟨[], List.Forall₂.nil, ?_⟩
  simpa using h

theorem in_order_single {t c : Str} {lo off hi : Nat} (h : occursAt t off c)
    (h1 : lo ≤ off) (h2 : off ≤ hi) : in_order_between t lo hi [c] := by
  refine ⟨[off], List.Forall₂.cons h List.Forall₂.nil, ?_⟩
  simp [List.chain'_cons, h1, h2]

theorem chain'_last_le {l : List Nat} {a m : Nat}
    (h : List.Chain' (· ≤ ·) (a :: l ++ [m])) :
    List.Chain' (· ≤ ·) (a :: l) ∧ ∀ x ∈ (a :: l).getLast?, x ≤ m := by
  have hsplit : a :: l ++ [m] = (a :: l) ++ [m] := by simp
  rw [hsplit, List.chain'_append] at h
  refine ⟨h.1, ?_⟩
  intro x hx
  exact h.2.2 x hx m (by simp)

theorem in_order_append {t : Str} {lo m hi : Nat} {cs1 cs2 : List Str}
    (h1 : in_order_between t lo m cs1) (h2 : in_order_between t m hi cs2) :
    in_order_between t lo hi (cs1 ++ cs2) := by
  rcases h1 with ⟨o1, hf1, hc1⟩
  rcases h2 with ⟨o2, hf2, hc2⟩
  refine ⟨o1 ++ o2, List.rel_append hf1 hf2, ?_⟩
  rcases chain'_last_le hc1 with ⟨hca, hlast⟩
  have hc2' : List.Chain' (· ≤ ·) (m :: (o2 ++ [hi])) := by simpa using hc2
  rw [List.chain'_cons'] at hc2'
  have hgoal : lo :: (o1 ++ o2) ++ [hi] = (lo :: o1) ++ (o2 ++ [hi]) := by simp
  rw [hgoal, List.chain'_append]
  refine ⟨hca, hc2'.2, ?_⟩
  intro x hx y hy
  have hxm : x ≤ m := hlast x hx
  have hmy : m ≤ y := hc2'.1 y hy
  omega

theorem in_order_shift {t s : Str} {cs : List Str} {b : Nat}
    (h : in_order_between s 0 s.length cs) (hocc : occursAt t b s) :
    in_order_between t b (b + s.length) cs := by
  rcases h with ⟨offs, hf, hc⟩
  refine ⟨offs.map (b + ·), ?_, ?_⟩
  · rw [List.forall₂_map_left_iff]
    exact hf.imp fun {o c} ho => occursAt_trans ho hocc
  · have hmap : b :: offs.map (b + ·) ++ [b + s.length]
        = (0 :: offs ++ [s.length]).map (b + ·) := by
      simp
    rw [hmap, List.chain'_map]
    exact hc.imp fun a c hab => by omega

theorem merge_loop_order (size ov : Nat) : ∀ (goods : List Str) (acc : Str),
    in_order_between (acc ++ goods.flatten) 0 (acc ++ goods.flatten).length
      (merge_loop size ov acc goods) := by
  intro goods
  induction goods with
  | nil =>
    intro acc
    rw [merge_loop]
    by_cases h : acc = []
    · rw [if_pos h]
      exact in_order_nil (by simp)
    · rw [if_neg h]
      simp only [List.flatten_nil, List.append_nil]
      exact in_order_single (occursAt_refl acc) (le_refl 0) (by simp)
  | cons p ps ih =>
    intro acc
    rw [merge_loop, List.flatten_cons]
    by_cases h : acc.length + p.length ≤ size
    · rw [if_pos h]
      have hthis := ih (acc ++ p)
      rw [List.append_assoc] at hthis
      exact hthis
    · rw [if_neg h]
      by_cases hs : (take_right ov acc).length + p.length ≤ size
      · rw [if_pos hs]
        have hbase : acc.length - ov ≤ acc.length := by omega
        have hdrop : (acc ++ (p ++ ps.flatten)).drop (acc.length - ov)
            = (take_right ov acc ++ p) ++ ps.flatten := by
          rw [List.drop_append_of_le_length hbase, take_right, List.append_assoc]
        have hocc : occursAt (acc ++ (p ++ ps.flatten)) (acc.length - ov)
            ((take_right ov acc ++ p) ++ ps.flatten) :=
          occursAt_drop hdrop (by simp; omega)
        have hshift := in_order_shift (ih (take_right ov acc ++ p)) hocc
        have hlen : (acc.length - ov) + ((take_right ov acc ++ p) ++ ps.flatten).length
            = (acc ++ (p ++ ps.flatten)).length := by
          simp [take_right]
          omega
        rw [hlen] at hshift
        refine in_order_append ?_ hshift
        by_cases ha : acc = []
        · rw [if_pos ha]
          exact in_order_nil (by omega)
        · rw [if_neg ha]
          refine in_order_single ⟨by simp, ?_⟩ (le_refl 0) (by omega)
          rw [List.drop_zero, List.take_left]
      · rw [if_neg hs]
        have hdrop : (acc ++ (p ++ ps.flatten)).drop acc.length = p ++ ps.flatten :=
          List.drop_left acc (p ++ ps.flatten)
        have hocc : occursAt (acc ++ (p ++ ps.flatten)) acc.length (p ++ ps.flatten) :=
          occursAt_drop hdrop (by simp)
        have hshift := in_order_shift (ih p) hocc
        have hlen : acc.length + (p ++ ps.flatten).length
            = (acc ++ (p ++ ps.flatten)).length := by simp
        rw [hlen] at hshift
        refine in_order_append ?_ hshift
        by_cases ha : acc = []
        · rw [if_pos ha]
          exact in_order_nil (by omega)
        · rw [if_neg ha]
          refine in_order_single ⟨by simp, ?_⟩ (le_refl 0) (by omega)
          rw [List.drop_zero, List.take_left]

theorem proc_pieces_order {size ov : Nat} {recur : Str → List Str} :
    ∀ (pieces goods : List Str),
    (∀ p ∈ pieces, in_order_between p 0 p.length (recur p)) →
    in_order_between (goods.flatten ++ pieces.flatten) 0
      (goods.flatten ++ pieces.flatten).length
      (proc_pieces size ov recur goods pieces) := by
  intro pieces
  induction pieces with
  | nil =>
    intro goods _
    rw [proc_pieces]
    have hml := merge_loop_order size ov goods []
    simpa using hml
  | cons p ps ih =>
    intro goods hrec
    rw [proc_pieces, List.flatten_cons]
    by_cases h : p.length ≤ size
    · rw [if_pos h]
      have hthis := ih (goods ++ [p])
        (fun q hq => hrec q (List.mem_cons_of_mem _ hq))
      rw [List.flatten_append] at hthis
      simp only [List.flatten_cons, List.flatten_nil, List.append_nil,
        List.append_assoc] at hthis
      exact hthis
    · rw [if_neg h]
      have hml := merge_loop_order size ov goods []
      simp only [List.nil_append] at hml
      have hocc1 : occursAt (goods.flatten ++ (p ++ ps.flatten)) 0 goods.flatten := by
        refine ⟨by simp, ?_⟩
        rw [List.drop_zero, List.take_left]
      have hpart1 := in_order_shift hml hocc1
      rw [Nat.zero_add] at hpart1
      have hocc2 : occursAt (goods.flatten ++ (p ++ ps.flatten)) goods.flatten.length p := by
        refine ⟨by simp, ?_⟩
        rw [List.drop_left, List.take_left]
      have hpart2 := in_order_shift (hrec p (List.mem_cons_self _ _)) hocc2
      have hocc3 : occursAt (goods.flatten ++ (p ++ ps.flatten))
          (goods.flatten.length + p.length) ps.flatten := by
        refine occursAt_drop ?_ (by simp)
        rw [← List.append_assoc, ← List.length_append, List.drop_left]
      have hpart3raw := ih [] (fun q hq => hrec q (List.mem_cons_of_mem _ hq))
      simp only [List.flatten_nil, List.nil_append] at hpart3raw
      have hpart3 := in_order_shift hpart3raw hocc3
      have hlen3 : goods.flatten.length + p.length + ps.flatten.length
          = (goods.flatten ++ (p ++ ps.flatten)).length := by simp; omega
      rw [hlen3] at hpart3
      exact in_order_append (in_order_append hpart1 hpart2) hpart3

theorem split_rec_order {size ov : Nat} : ∀ (seps : List Str) (t : Str),
    in_order_between t 0 t.length (split_rec size ov seps t) := by
  intro seps
  induction seps with
  | nil =>
    intro t
    rw [split_rec]
    by_cases h : t = []
    · rw [if_pos h]
      exact in_order_nil (by omega)
    · rw [if_neg h]
      exact in_order_single (occursAt_refl t) (le_refl 0) (by omega)
  | cons sep rest ih =>
    intro t
    rw [split_rec]
    have hp := @proc_pieces_order size ov (fun s => split_rec size ov rest s)
      (split_keep_sep sep t) [] (fun p _ => ih p)
    simp only [List.flatten_nil, List.nil_append, split_keep_sep_flatten] at hp
    exact hp

/-- Modelled from the spec: a chunk that no separator of the hierarchy can
split into more than one piece (an atomic token). -/
def IsAtomicToken (c : Str) : Prop :=
  ∀ sep ∈ SEPARATORS, (split_keep_sep sep c).length ≤ 1

/-- Claim C4: for every text and every valid configuration with
`0 < chunk_overlap < chunk_size`, every chunk produced by the Recursive
Chunker has length at most `chunk_size`, except a chunk consisting of a
single atomic token longer than `chunk_size`; and the output chunks preserve
the original text order (they occur in the text at nondecreasing offsets).
Modelled from the spec (4.3): since the empty-string separator performs a
character-level split as last resort, the chunker in fact never emits an
oversized atomic token, so the left disjunct always holds. -/
theorem split_text_spec (t : Str) (size ov : Nat) (h1 : 0 < ov) (h2 : ov < size) :
    (∀ c ∈ split_text size ov t,
        c.length ≤ size ∨ (size < c.length ∧ IsAtomicToken c)) ∧
      in_order_between t 0 t.length (split_text size ov t) := by
  constructor
  · intro c hc
    left
    exact split_rec_le (by omega) SEPARATORS (by decide) t c hc
  · exact split_rec_order SEPARATORS t

/-- Witness for C4 at a concrete text and configuration. -/
theorem split_text_spec_check :
    (0 < 2 ∧ 2 < 5) ∧
      ((∀ c ∈ split_text 5 2 (str "aa bb cc"),
          c.length ≤ 5 ∨ (5 < c.length ∧ IsAtomicToken c)) ∧
        in_order_between (str "aa bb cc") 0 (str "aa bb cc").length
          (split_text 5 2 (str "aa bb cc"))) :=
  ⟨⟨by decide, by decide⟩, split_text_spec (str "aa bb cc") 5 2 (by decide) (by decide)⟩

/-- A document as the retrieval/chunking code sees it: the page content and the
metadata fields actually read (`source`, `page`, `category`, `section`);
absent keys are `none`. -/
structure Doc where
  content : Str
  source : Option Str
  page : Option Int
  category : Option Str
  sectionTag : Option Str
deriving DecidableEq, Repr

/-- A per-category override entry of `category_config`: a dict that may carry
`size` and/or `overlap`. -/
structure CatCfg where
  size : Option Nat
  overlap : Option Nat
deriving DecidableEq, Repr

/-- `doc.metadata.get("category", "default")` of `split_documents`. -/
def doc_cat (d : Doc) : Str := d.category.getD (str "default")

/-- The override resolution of `split_documents`:
`cfg = category_config.get(category, default_cfg)` then
`cfg.get("size", default size)` / `cfg.get("overlap", default overlap)`. -/
def resolve_cfg (catCfg : List (Str × CatCfg)) (defSize defOv : Nat) (cat : Str) :
    Nat × Nat :=
  match catCfg.lookup cat with
  | none => (defSize, defOv)
  | some c => (c.size.getD defSize, c.overlap.getD defOv)

/-- First-seen-order deduplication of category keys, as a Python dict built by
`setdefault` iterates its keys. -/
def first_seen (seen : List Str) : List Str → List Str
  | [] => []
  | c :: rest =>
    if c ∈ seen then first_seen seen rest
    else c :: first_seen (c :: seen) rest

/-- The grouping loop of `split_documents`: one entry per category in
first-seen order, carrying that category's documents in source order. -/
def group_by_category (docs : List Doc) : List (Str × List Doc) :=
  (first_seen [] (docs.map doc_cat)).map fun c =>
    (c, docs.filter fun d => doc_cat d == c)

/-- Modelled from the spec: `_split_with_params` builds the library
`RecursiveCharacterTextSplitter(chunk_size=size, chunk_overlap=overlap)` (code
not under src/) and splits the documents, cloning metadata per chunk.  Spec
4.3/7: `chunk_overlap` must be < `chunk_size`; violating this is a
configuration error surfaced to the caller before any chunking work. -/
def split_with_params (docs : List Doc) (size ov : Nat) : Except Str (List Doc) :=
  if size ≤ ov then Except.error (str "chunk overlap must be smaller than chunk size")
  else Except.ok (docs.flatMap fun d =>
    (split_text size ov d.content).map fun c => { d with content := c })

/-- `_split_paper_docs` of src/framework/ingest/splitters.py: segment each
paper into sections, skip empty section texts, stamp the section tag, then
chunk the derived sub-documents. -/
def split_paper_docs (docs : List Doc) (size ov : Nat) : Except Str (List Doc) :=
  split_with_params
    (docs.flatMap fun d =>
      (split_paper_sections d.content).filterMap fun sec =>
        if sec.text = [] then none
        else some { d with sectionTag := some sec.label, content := sec.text })
    size ov

/-- One iteration of the per-category loop of `split_documents`: resolve the
category's size/overlap and chunk it, via the paper path for category
"paper". -/
def split_one (catCfg : List (Str × CatCfg)) (defSize defOv : Nat) (cat : Str)
    (items : List Doc) : Except Str (List Doc) :=
  let cfg := resolve_cfg catCfg defSize defOv cat
  if cat == str "paper" then split_paper_docs items cfg.1 cfg.2
  else split_with_params items cfg.1 cfg.2

/-- The per-category loop of `split_documents`: chunks are concatenated in
group order; the first raised configuration error aborts the run. -/
def split_groups (catCfg : List (Str × CatCfg)) (defSize defOv : Nat) :
    List (Str × List Doc) → Except Str (List Doc)
  | [] => Except.ok []
  | (cat, items) :: rest => do
    let chunks ← split_one catCfg defSize defOv cat items
    let tail ← split_groups catCfg defSize defOv rest
    pure (chunks ++ tail)

/-- `split_documents` of src/framework/ingest/splitters.py. -/
def split_documents (docs : List Doc) (chunkSize chunkOverlap : Nat)
    (catCfg : List (Str × CatCfg)) : Except Str (List Doc) :=
  if docs = [] then Except.ok []
  else split_groups catCfg chunkSize chunkOverlap (group_by_category docs)

theorem split_with_params_error {docs : List Doc} {size ov : Nat} (h : size ≤ ov) :
    split_with_params docs size ov
      = Except.error (str "chunk overlap must be smaller than chunk size") := by
  rw [split_with_params, if_pos h]

theorem split_one_error {catCfg : List (Str × CatCfg)} {defSize defOv : Nat}
    {cat : Str} {items : List Doc}
    (h : (resolve_cfg catCfg defSize defOv cat).1 ≤ (resolve_cfg catCfg defSize defOv cat).2) :
    split_one catCfg defSize defOv cat items
      = Except.error (str "chunk overlap must be smaller than chunk size") := by
  rw [split_one]
  by_cases hp : (cat == str "paper") = true
  · rw [if_pos hp, split_paper_docs]
    exact split_with_params_error h
  · rw [if_neg hp]
    exact split_with_params_error h

theorem first_seen_mem {c : Str} : ∀ (l : List Str) (seen : List Str),
    c ∈ l → c ∉ seen → c ∈ first_seen seen l := by
  intro l
  induction l with
  | nil => intro seen h; simp at h
  | cons a rest ih =>
    intro seen hmem hns
    rw [first_seen]
    rcases List.mem_cons.1 hmem with h | h
    · rw [← h]
      rw [if_neg (h ▸ hns)]
      exact List.mem_cons_self _ _
    · by_cases ha : a ∈ seen
      · rw [if_pos ha]
        exact ih seen h hns
      · rw [if_neg ha]
        by_cases hca : c = a
        · rw [hca]; exact List.mem_cons_self _ _
        · refine List.mem_cons_of_mem _ (ih (a :: seen) h ?_)
          intro hcs
          rcases List.mem_cons.1 hcs with h2 | h2
          · exact hca h2
          · exact hns h2

theorem split_groups_error {catCfg : List (Str × CatCfg)} {defSize defOv : Nat} :
    ∀ (groups : List (Str × List Doc)) (cat : Str) (items : List Doc),
    (cat, items) ∈ groups →
    (resolve_cfg catCfg defSize defOv cat).1 ≤ (resolve_cfg catCfg defSize defOv cat).2 →
    ∃ e, split_groups catCfg defSize defOv groups = Except.error e := by
  intro groups
  induction groups with
  | nil => intro cat items h; simp at h
  | cons g rest ih =>
    intro cat items hmem hbad
    rcases g with ⟨c2, it2⟩
    rcases hstep : split_one catCfg defSize defOv c2 it2 with e | val
    · exact ⟨e, by rw [split_groups.eq_def]; simp only [hstep]; rfl⟩
    · rcases List.mem_cons.1 hmem with h | h
      · have : c2 = cat ∧ it2 = items := by
          constructor <;> [exact (Prod.mk.injEq _ _ _ _ ▸ h.symm).1;
            exact (Prod.mk.injEq _ _ _ _ ▸ h.symm).2]
        rw [this.1] at hstep
        rw [split_one_error hbad] at hstep
        cases hstep
      · rcases ih cat items h hbad with ⟨e, he⟩
        exact ⟨e, by rw [split_groups.eq_def]; simp only [hstep, he]; rfl⟩

/-- Claim C6: if any document's category resolves (via the per-category
override with fallback to the global defaults) to `chunk_overlap ≥ chunk_size`,
then `split_documents` surfaces the configuration error to the caller and no
chunks are produced for any category (the result is an error, not a chunk
list).  The validation itself lives in the Recursive Chunker construction
(spec 4.3/7), modelled from the spec. -/
theorem split_documents_config_error {docs : List Doc} {chunkSize chunkOverlap : Nat}
    {catCfg : List (Str × CatCfg)} {d : Doc} (hd : d ∈ docs)
    (hbad : (resolve_cfg catCfg chunkSize chunkOverlap (doc_cat d)).1
      ≤ (resolve_cfg catCfg chunkSize chunkOverlap (doc_cat d)).2) :
    ∃ e, split_documents docs chunkSize chunkOverlap catCfg = Except.error e := by
  have hne : docs ≠ [] := by
    intro h
    rw [h] at hd
    simp at hd
  rw [split_documents, if_neg hne]
  have hkey : doc_cat d ∈ first_seen [] (docs.map doc_cat) :=
    first_seen_mem (docs.map doc_cat) [] (List.mem_map_of_mem _ hd) (by simp)
  have hgrp : (doc_cat d, docs.filter fun x => doc_cat x == doc_cat d)
      ∈ group_by_category docs := by
    rw [group_by_category]
    exact List.mem_map_of_mem _ hkey
  exact split_groups_error (group_by_category docs) (doc_cat d) _ hgrp hbad

/-- Witness for C6: a one-note batch whose category overrides resolve to
overlap 7 ≥ size 5 makes `split_documents` fail with no chunks. -/
theorem split_documents_config_error_check :
    ∃ e, split_documents
        [{ content := str "abcdefgh", source := none, page := none,
           category := some (str "note"), sectionTag := none }] 1000 150
        [(str "note", { size := some 5, overlap := some 7 })] = Except.error e :=
  split_documents_config_error (List.mem_cons_self _ _) (by decide)

/-- Maximal alphanumeric runs of a character list, as `re.findall("[A-Za-z0-9]+", ...)`. -/
def alnum_runs : Str → List Str
  | [] => []
  | c :: rest =>
    if c.isAlphanum then
      (c :: rest.takeWhile Char.isAlphanum) :: alnum_runs (rest.dropWhile Char.isAlphanum)
    else alnum_runs rest
termination_by l => l.length
decreasing_by
  · exact Nat.lt_succ_of_le (List.IsSuffix.length_le (List.dropWhile_suffix _))
  · simp

/-- `_tokenize` of src/framework/rag/retriever.py: lowercase, then split into
maximal alphanumeric runs. -/
def tokenize (t : Str) : List Str := alnum_runs (t.map Char.toLower)

/-- One parsed line of the chunk record file, projected to the fields the
retriever reads: the text and the `source`/`page` metadata. -/
structure Row where
  text : Str
  source : Option Str
  page : Option Int
deriving DecidableEq, Repr

/-- `_load_chunks` of src/framework/rag/retriever.py, over already-parsed
non-blank rows: each row becomes a document with the row's text and
metadata. -/
def load_chunks (rows : List Row) : List Doc :=
  rows.map fun r =>
    { content := r.text, source := r.source, page := r.page,
      category := none, sectionTag := none }

/-- The composite deduplication key of `_dedupe_docs`:
`(source, page, first 120 characters of content)`. -/
def dedupe_key (d : Doc) : Option Str × Option Int × Str :=
  (d.source, d.page, d.content.take 120)

/-- The seen-set loop of `_dedupe_docs`: first occurrence of each key wins. -/
def dedupe_go (seen : List (Option Str × Option Int × Str)) : List Doc → List Doc
  | [] => []
  | d :: ds =>
    if dedupe_key d ∈ seen then dedupe_go seen ds
    else d :: dedupe_go (dedupe_key d :: seen) ds

/-- `_dedupe_docs` of src/framework/rag/retriever.py. -/
def dedupe_docs (docs : List Doc) : List Doc := dedupe_go [] docs

/-- Stable insertion into a descending-sorted list: an element goes before the
first strictly smaller score, after equal ones already placed earlier —
the ordering produced by Python's stable `sorted(..., reverse=True)`. -/
def insert_desc {α : Type} (score : α → Int) (x : α) : List α → List α
  | [] => [x]
  | y :: ys => if score x ≥ score y then x :: y :: ys else y :: insert_desc score x ys

/-- Stable descending sort by score. -/
def sort_desc {α : Type} (score : α → Int) : List α → List α
  | [] => []
  | x :: xs => insert_desc score x (sort_desc score xs)

/-- The constructed hybrid retriever: the vector store `db` and the BM25 and
reranker scoring models are external collaborators held as functions. -/
structure HybridRetriever where
  db : Str → Nat → List Doc
  topKVector : Nat
  topKBm25 : Nat
  topKFinal : Nat
  rerankModel : Str
  rerankScore : Str → Str → Int
  bm25Docs : List Doc
  bm25Scores : List Str → List Int

/-- The padding document for out-of-range corpus indexing (never reached for
well-formed score lists). -/
def default_doc : Doc :=
  { content := [], source := none, page := none, category := none, sectionTag := none }

/-- `HybridRetriever._bm25_search`: tokenize the query (empty token list means
empty result), score the corpus, rank indices by score descending (stable),
take `top_k_bm25`, and look the documents up. -/
def bm25_search (r : HybridRetriever) (q : Str) : List Doc :=
  let tokens := tokenize q
  if tokens = [] then []
  else
    let scores := r.bm25Scores tokens
    let ranked := sort_desc (fun i => scores.getD i 0) (List.range scores.length)
    (ranked.take r.topKBm25).map fun i => r.bm25Docs.getD i default_doc

/-- `HybridRetriever._rerank`: identity when no reranker is configured
(`rerank_model` empty means `self.reranker is None`) or the candidate list is
empty; otherwise a stable descending resort by reranker score. -/
def rerank_docs (r : HybridRetriever) (q : Str) (docs : List Doc) : List Doc :=
  if r.rerankModel = [] then docs
  else if docs = [] then docs
  else sort_desc (fun d => r.rerankScore q d.content) docs

/-- `HybridRetriever.get_relevant_documents`: vector search, lexical search,
merge with dedupe (vector results first), optional rerank, truncate. -/
def get_relevant_documents (r : HybridRetriever) (q : Str) : List Doc :=
  let vec := r.db q r.topKVector
  let lex := bm25_search r q
  let merged := dedupe_docs (vec ++ lex)
  (rerank_docs r q merged).take r.topKFinal

/-- The two shapes `get_retriever` can return: the plain vector-store
retriever `db.as_retriever(search_kwargs={"k": ...})`, or a hybrid
retriever. -/
inductive RetrieverResult where
  | vectorOnly (db : Str → Nat → List Doc) (k : Nat)
  | hybrid (r : HybridRetriever)

/-- Python's `x or top_k` for an optional int `x`: both `None` and `0` are
falsy and fall back to `top_k`. -/
def or_top_k (o : Option Nat) (d : Nat) : Nat :=
  match o with
  | none => d
  | some 0 => d
  | some (n + 1) => n + 1

/-- `get_retriever` of src/framework/rag/retriever.py.  The embedding model,
vector store, BM25 implementation and cross-encoder are external
collaborators, passed as `db`, `bm25Model` and `rerankScoreC`; the file system
is `fs` (a path is a file iff `fs` returns its parsed rows).  Hybrid mode is
chosen iff `chunks_file` is a non-empty path naming an existing file. -/
def get_retriever (db : Str → Nat → List Doc)
    (bm25Model : List (List Str) → List Str → List Int)
    (rerankScoreC : Str → Str → Int)
    (fs : Str → Option (List Row)) (topK : Nat) (chunksFile : Str)
    (topKVector topKBm25 topKFinal : Option Nat) (rerankModel : Str) :
    RetrieverResult :=
  if chunksFile ≠ [] ∧ (fs chunksFile).isSome then
    let docs := load_chunks ((fs chunksFile).getD [])
    RetrieverResult.hybrid
      { db := db,
        topKVector := or_top_k topKVector topK,
        topKBm25 := or_top_k topKBm25 topK,
        topKFinal := or_top_k topKFinal topK,
        rerankModel := rerankModel,
        rerankScore := rerankScoreC,
        bm25Docs := docs,
        bm25Scores := bm25Model (docs.map fun d => tokenize d.content) }
  else RetrieverResult.vectorOnly db topK

/-- Running either retriever shape on a query: the plain retriever performs a
single similarity search with its `k`; the hybrid retriever runs the full
pipeline. -/
def run_retriever : RetrieverResult → Str → List Doc
  | RetrieverResult.vectorOnly db k, q => db q k
  | RetrieverResult.hybrid r, q => get_relevant_documents r q

/-- Whether `get_retriever` chose hybrid mode. -/
def is_hybrid : RetrieverResult → Bool
  | RetrieverResult.hybrid _ => true
  | RetrieverResult.vectorOnly _ _ => false

/-- The vector tier size of a hybrid result. -/
def tier_vector : RetrieverResult → Option Nat
  | RetrieverResult.hybrid r => some r.topKVector
  | RetrieverResult.vectorOnly _ _ => none

/-- The lexical tier size of a hybrid result. -/
def tier_bm25 : RetrieverResult → Option Nat
  | RetrieverResult.hybrid r => some r.topKBm25
  | RetrieverResult.vectorOnly _ _ => none

/-- The final tier size of a hybrid result. -/
def tier_final : RetrieverResult → Option Nat
  | RetrieverResult.hybrid r => some r.topKFinal
  | RetrieverResult.vectorOnly _ _ => none

/-- The seen-key set after `dedupe_go` has consumed a document list. -/
def seen_after (seen : List (Option Str × Option Int × Str)) :
    List Doc → List (Option Str × Option Int × Str)
  | [] => seen
  | d :: ds =>
    if dedupe_key d ∈ seen then seen_after seen ds
    else seen_after (dedupe_key d :: seen) ds

theorem dedupe_go_append (xs : List Doc) : ∀ (seen) (ys : List Doc),
    dedupe_go seen (xs ++ ys) = dedupe_go seen xs ++ dedupe_go (seen_after seen xs) ys := by
  induction xs with
  | nil => intro seen ys; rfl
  | cons d ds ih =>
    intro seen ys
    rw [List.cons_append, dedupe_go, dedupe_go, seen_after]
    by_cases h : dedupe_key d ∈ seen
    · rw [if_pos h, if_pos h, if_pos h, ih]
    · rw [if_neg h, if_neg h, if_neg h, ih, List.cons_append]

theorem seen_after_mono {k : Option Str × Option Int × Str} :
    ∀ (xs : List Doc) (seen), k ∈ seen → k ∈ seen_after seen xs := by
  intro xs
  induction xs with
  | nil => intro seen h; exact h
  | cons d ds ih =>
    intro seen h
    rw [seen_after]
    by_cases hd : dedupe_key d ∈ seen
    · rw [if_pos hd]; exact ih seen h
    · rw [if_neg hd]; exact ih _ (List.mem_cons_of_mem _ h)

theorem seen_after_of_mem {k : Option Str × Option Int × Str} :
    ∀ (xs : List Doc) (seen), (∃ d ∈ xs, dedupe_key d = k) → k ∈ seen_after seen xs := by
  intro xs
  induction xs with
  | nil => intro seen h; simp at h
  | cons d ds ih =>
    intro seen h
    rcases h with ⟨x, hx, hkx⟩
    rw [seen_after]
    rcases List.mem_cons.1 hx with hx | hx
    · by_cases hd : dedupe_key d ∈ seen
      · rw [if_pos hd]
        exact seen_after_mono ds seen (by rw [← hkx, hx]; exact hd)
      · rw [if_neg hd]
        exact seen_after_mono ds _ (by rw [← hkx, hx]; exact List.mem_cons_self _ _)
    · by_cases hd : dedupe_key d ∈ seen
      · rw [if_pos hd]; exact ih seen ⟨x, hx, hkx⟩
      · rw [if_neg hd]; exact ih _ ⟨x, hx, hkx⟩

theorem dedupe_go_not_seen : ∀ (ys : List Doc) (seen),
    ∀ x ∈ dedupe_go seen ys, dedupe_key x ∉ seen := by
  intro ys
  induction ys with
  | nil => intro seen x hx; simp [dedupe_go] at hx
  | cons d ds ih =>
    intro seen x hx
    rw [dedupe_go] at hx
    by_cases hd : dedupe_key d ∈ seen
    · rw [if_pos hd] at hx
      exact ih seen x hx
    · rw [if_neg hd] at hx
      rcases List.mem_cons.1 hx with hx | hx
      · rw [hx]; exact hd
      · intro hk
        exact ih _ x hx (List.mem_cons_of_mem _ hk)

theorem dedupe_go_first {k : Option Str × Option Int × Str} :
    ∀ (xs : List Doc) (seen), k ∉ seen → (∃ d ∈ xs, dedupe_key d = k) →
    (dedupe_go seen xs).countP (fun d => decide (dedupe_key d = k)) = 1 ∧
      (dedupe_go seen xs).find? (fun d => decide (dedupe_key d = k))
        = xs.find? (fun d => decide (dedupe_key d = k)) := by
  intro xs
  induction xs with
  | nil => intro seen _ h; simp at h
  | cons d ds ih =>
    intro seen hns hex
    rw [dedupe_go]
    by_cases hdk : dedupe_key d = k
    · rw [if_neg (by rw [hdk]; exact hns)]
      constructor
      · rw [List.countP_cons]
        have hz : (dedupe_go (dedupe_key d :: seen) ds).countP
            (fun x => decide (dedupe_key x = k)) = 0 := by
          rw [List.countP_eq_zero]
          intro x hx
          have hnotin := dedupe_go_not_seen ds _ x hx
          simp only [decide_eq_true_eq]
          intro hxk
          exact hnotin (by rw [hxk, ← hdk]; exact List.mem_cons_self _ _)
        rw [hdk] at hz
        simp [hdk, hz]
      · rw [List.find?_cons_of_pos _ (by simp [hdk]),
          List.find?_cons_of_pos _ (by simp [hdk])]
    · rcases hex with ⟨x, hx, hkx⟩
      rcases List.mem_cons.1 hx with hx | hx
      · exact absurd (hx ▸ hkx : dedupe_key d = k) hdk
      by_cases hd : dedupe_key d ∈ seen
      · rw [if_pos hd]
        rcases ih seen hns ⟨x, hx, hkx⟩ with ⟨h1, h2⟩
        refine ⟨h1, ?_⟩
        rw [h2, List.find?_cons_of_neg _ (by simp [hdk])]
      · rw [if_neg hd]
        have hns2 : k ∉ dedupe_key d :: seen := by
          intro hk
          rcases List.mem_cons.1 hk with hk | hk
          · exact hdk hk.symm
          · exact hns hk
        rcases ih _ hns2 ⟨x, hx, hkx⟩ with ⟨h1, h2⟩
        constructor
        · rw [List.countP_cons]
          simp [hdk, h1]
        · rw [List.find?_cons_of_neg _ (by simp [hdk]),
            List.find?_cons_of_neg _ (by simp [hdk])]
          exact h2

theorem find?_append_left {p : Doc → Bool} {x : Doc} :
    ∀ {l1 : List Doc} (l2 : List Doc), l1.find? p = some x → (l1 ++ l2).find? p = some x := by
  intro l1
  induction l1 with
  | nil => intro l2 h; simp at h
  | cons a r ih =>
    intro l2 h
    rw [List.cons_append]
    by_cases hp : p a = true
    · rw [List.find?_cons_of_pos _ hp] at h
      rw [List.find?_cons_of_pos _ hp]
      exact h
    · rw [List.find?_cons_of_neg _ hp] at h
      rw [List.find?_cons_of_neg _ hp]
      exact ih l2 h

theorem findIdx_append_left {p : Doc → Bool} :
    ∀ (l1 l2 : List Doc), (∃ a ∈ l1, p a) → (l1 ++ l2).findIdx p = l1.findIdx p := by
  intro l1
  induction l1 with
  | nil => intro l2 h; simp at h
  | cons a r ih =>
    intro l2 h
    rw [List.cons_append, List.findIdx_cons, List.findIdx_cons]
    by_cases hp : p a = true
    · rw [hp]
      simp
    · simp only [Bool.not_eq_true] at hp
      rw [hp]
      simp only [cond_false]
      rcases h with ⟨x, hx, hpx⟩
      rcases List.mem_cons.1 hx with hx | hx
      · rw [hx] at hpx; rw [hpx] at hp; cases hp
      · rw [ih l2 ⟨x, hx, hpx⟩]

/-- Claim C3: if a composite key occurs both among the vector results and the
lexical results, then in the deduplicated merge (vector results concatenated
first, first occurrence of a key wins) that key occurs exactly once; the
surviving document is the first vector result with that key; and its position
is its position in the deduplicated vector results (the vector-search
position). -/
theorem dedupe_merge_spec (vec lex : List Doc) (k : Option Str × Option Int × Str)
    (hv : ∃ d ∈ vec, dedupe_key d = k) (_hl : ∃ d ∈ lex, dedupe_key d = k) :
    (dedupe_docs (vec ++ lex)).countP (fun d => decide (dedupe_key d = k)) = 1 ∧
      (dedupe_docs (vec ++ lex)).find? (fun d => decide (dedupe_key d = k))
        = vec.find? (fun d => decide (dedupe_key d = k)) ∧
      (dedupe_docs (vec ++ lex)).findIdx (fun d => decide (dedupe_key d = k))
        = (dedupe_docs vec).findIdx (fun d => decide (dedupe_key d = k)) := by
  have hsplit : dedupe_docs (vec ++ lex)
      = dedupe_go [] vec ++ dedupe_go (seen_after [] vec) lex := by
    rw [dedupe_docs, dedupe_go_append]
  rcases dedupe_go_first vec [] (by simp) hv with ⟨h1, h2⟩
  have hkS : k ∈ seen_after [] vec := seen_after_of_mem vec [] hv
  have hzero : (dedupe_go (seen_after [] vec) lex).countP
      (fun d => decide (dedupe_key d = k)) = 0 := by
    rw [List.countP_eq_zero]
    intro x hx
    have hnotin := dedupe_go_not_seen lex _ x hx
    simp only [decide_eq_true_eq]
    intro hxk
    exact hnotin (hxk ▸ hkS)
  have hex1 : ∃ a ∈ dedupe_go [] vec, (fun d => decide (dedupe_key d = k)) a = true := by
    by_contra hno
    push_neg at hno
    have hc0 : (dedupe_go [] vec).countP (fun d => decide (dedupe_key d = k)) = 0 :=
      List.countP_eq_zero.2 (fun a ha => by simp [hno a ha])
    rw [hc0] at h1
    cases h1
  refine ⟨?_, ?_, ?_⟩
  · rw [hsplit, List.countP_append, h1, hzero]
  · rw [hsplit]
    rcases hfv : vec.find? (fun d => decide (dedupe_key d = k)) with _ | x
    · rcases hv with ⟨d, hd, hkd⟩
      have hne : vec.find? (fun d => decide (dedupe_key d = k)) ≠ none := by
        intro hnone
        have := List.find?_eq_none.1 hnone d hd
        simp [hkd] at this
      exact absurd hfv hne
    · have hres := find?_append_left (dedupe_go (seen_after [] vec) lex)
        (show (dedupe_go [] vec).find? (fun d => decide (dedupe_key d = k)) = some x by
          rw [h2, hfv])
      rw [hres]
  · rw [hsplit, findIdx_append_left _ _ hex1, dedupe_docs]

/-- A concrete document used by the witnesses. -/
def doc_a : Doc :=
  { content := str "alpha chunk", source := some (str "a.pdf"), page := some 1,
    category := none, sectionTag := none }

/-- A second concrete document used by the witnesses. -/
def doc_b : Doc :=
  { content := str "beta chunk", source := some (str "b.pdf"), page := some 2,
    category := none, sectionTag := none }

/-- Witness for C3 at concrete result lists sharing the key of `doc_a`. -/
theorem dedupe_merge_spec_check :
    (∃ d ∈ [doc_a, doc_b], dedupe_key d = dedupe_key doc_a) ∧
      (∃ d ∈ [doc_a], dedupe_key d = dedupe_key doc_a) ∧
      ((dedupe_docs ([doc_a, doc_b] ++ [doc_a])).countP
          (fun d => decide (dedupe_key d = dedupe_key doc_a)) = 1 ∧
        (dedupe_docs ([doc_a, doc_b] ++ [doc_a])).find?
            (fun d => decide (dedupe_key d = dedupe_key doc_a))
          = [doc_a, doc_b].find? (fun d => decide (dedupe_key d = dedupe_key doc_a)) ∧
        (dedupe_docs ([doc_a, doc_b] ++ [doc_a])).findIdx
            (fun d => decide (dedupe_key d = dedupe_key doc_a))
          = (dedupe_docs [doc_a, doc_b]).findIdx
            (fun d => decide (dedupe_key d = dedupe_key doc_a))) :=
  ⟨by decide, by decide,
    dedupe_merge_spec [doc_a, doc_b] [doc_a] (dedupe_key doc_a) (by decide) (by decide)⟩

/-- Claim C7: with no reranker configured (`rerank_model` empty), the hybrid
retriever returns exactly the first `min(top_k_final, length)` elements of the
deduplicated merged list in merge order, hence never more than `top_k_final`
chunks. -/
theorem hybrid_no_rerank (r : HybridRetriever) (q : Str) (h : r.rerankModel = []) :
    get_relevant_documents r q
        = (dedupe_docs (r.db q r.topKVector ++ bm25_search r q)).take r.topKFinal ∧
      (get_relevant_documents r q).length
        = min r.topKFinal (dedupe_docs (r.db q r.topKVector ++ bm25_search r q)).length ∧
      (get_relevant_documents r q).length ≤ r.topKFinal := by
  have hid : rerank_docs r q (dedupe_docs (r.db q r.topKVector ++ bm25_search r q))
      = dedupe_docs (r.db q r.topKVector ++ bm25_search r q) := by
    rw [rerank_docs, if_pos h]
  have hmain : get_relevant_documents r q
      = (dedupe_docs (r.db q r.topKVector ++ bm25_search r q)).take r.topKFinal := by
    rw [get_relevant_documents]
    rw [hid]
  refine ⟨hmain, ?_, ?_⟩
  · rw [hmain, List.length_take]
  · rw [hmain, List.length_take]
    omega

/-- A concrete hybrid retriever with no reranker, used by the C7 witness. -/
def r_ex : HybridRetriever :=
  { db := fun _ k => [doc_a, doc_b].take k,
    topKVector := 2, topKBm25 := 2, topKFinal := 1,
    rerankModel := [],
    rerankScore := fun _ _ => 0,
    bm25Docs := [doc_a, doc_b],
    bm25Scores := fun _ => [1, 0] }

/-- Witness for C7 at the concrete retriever. -/
theorem hybrid_no_rerank_check :
    get_relevant_documents r_ex (str "alpha")
        = (dedupe_docs (r_ex.db (str "alpha") r_ex.topKVector
            ++ bm25_search r_ex (str "alpha"))).take r_ex.topKFinal ∧
      (get_relevant_documents r_ex (str "alpha")).length
        = min r_ex.topKFinal (dedupe_docs (r_ex.db (str "alpha") r_ex.topKVector
            ++ bm25_search r_ex (str "alpha"))).length ∧
      (get_relevant_documents r_ex (str "alpha")).length ≤ r_ex.topKFinal :=
  hybrid_no_rerank r_ex (str "alpha") rfl

/-- The empty file system: no chunk corpus file exists anywhere. -/
def fs_none : Str → Option (List Row) := fun _ => none

/-- A file system in which the chunk record file exists but is empty (zero
parsed rows). -/
def fs_empty_file : Str → Option (List Row) :=
  fun p => if p == str "chunks.jsonl" then some [] else none

/-- A concrete vector store whose result length reveals the `k` it was asked
for. -/
def db_ex : Str → Nat → List Doc := fun _ k => List.replicate k doc_a

/-- A trivial BM25 collaborator model. -/
def bm_ex : List (List Str) → List Str → List Int := fun _ _ => []

/-- A trivial reranker collaborator model. -/
def rr_ex : Str → Str → Int := fun _ _ => 0

/-- Claim C1 as stated is false: with no chunk corpus file, `get_retriever`
falls back to a vector-only retriever whose `k` is the generic `top_k` (2
here), not `top_k_final` (3 here): retrieval returns `db(q, 2)`, not
`db(q, 3)`. -/
theorem get_retriever_fallback_not_top_k_final :
    fs_none (str "chunks.jsonl") = none ∧
      run_retriever (get_retriever db_ex bm_ex rr_ex fs_none 2 (str "chunks.jsonl")
          none none (some 3) []) (str "q")
        ≠ db_ex (str "q") 3 := by
  constructor
  · rfl
  · decide

/-- Claim C1 amended: whenever the chunk-file check fails (empty path or no
such file), `get_retriever` returns the plain vector retriever with
`k = top_k` (the generic `top_k`, not `top_k_final`), and running it performs
exactly one similarity search with that `k` — no lexical search, no merge, no
rerank. -/
theorem get_retriever_vector_only (db : Str → Nat → List Doc)
    (bm : List (List Str) → List Str → List Int) (rr : Str → Str → Int)
    (fs : Str → Option (List Row)) (topK : Nat) (chunksFile : Str)
    (tkV tkB tkF : Option Nat) (rerankModel : Str)
    (h : ¬(chunksFile ≠ [] ∧ (fs chunksFile).isSome)) :
    get_retriever db bm rr fs topK chunksFile tkV tkB tkF rerankModel
        = RetrieverResult.vectorOnly db topK ∧
      ∀ q, run_retriever
          (get_retriever db bm rr fs topK chunksFile tkV tkB tkF rerankModel) q
        = db q topK := by
  rw [get_retriever, if_neg h]
  exact ⟨rfl, fun q => rfl⟩

/-- Witness for the amended C1. -/
theorem get_retriever_vector_only_check :
    get_retriever db_ex bm_ex rr_ex fs_none 2 (str "chunks.jsonl") none none (some 3) []
        = RetrieverResult.vectorOnly db_ex 2 ∧
      ∀ q, run_retriever
          (get_retriever db_ex bm_ex rr_ex fs_none 2 (str "chunks.jsonl")
            none none (some 3) []) q
        = db_ex q 2 :=
  get_retriever_vector_only db_ex bm_ex rr_ex fs_none 2 (str "chunks.jsonl")
    none none (some 3) [] (by decide)

/-- Claim C2 as stated is false: an existing but empty chunk record file still
selects hybrid mode — the code tests only `chunks_file and
os.path.isfile(chunks_file)`, never the file's content. -/
theorem get_retriever_hybrid_on_empty_file :
    fs_empty_file (str "chunks.jsonl") = some [] ∧
      is_hybrid (get_retriever db_ex bm_ex rr_ex fs_empty_file 5 (str "chunks.jsonl")
        none none none []) = true := by
  constructor
  · rfl
  · decide

/-- Claim C2 amended: `get_retriever` selects hybrid mode iff the chunk-file
path is non-empty and a file exists at it, regardless of the file's content;
an existing empty file still yields hybrid mode. -/
theorem get_retriever_mode_iff (db : Str → Nat → List Doc)
    (bm : List (List Str) → List Str → List Int) (rr : Str → Str → Int)
    (fs : Str → Option (List Row)) (topK : Nat) (chunksFile : Str)
    (tkV tkB tkF : Option Nat) (rerankModel : Str) :
    is_hybrid (get_retriever db bm rr fs topK chunksFile tkV tkB tkF rerankModel) = true
      ↔ (chunksFile ≠ [] ∧ (fs chunksFile).isSome) := by
  rw [get_retriever]
  by_cases h : chunksFile ≠ [] ∧ (fs chunksFile).isSome
  · rw [if_pos h]
    simpa [is_hybrid] using h
  · rw [if_neg h]
    simpa [is_hybrid] using h

/-- Claim C10 as stated is false on its conclusion: with `top_k = 0` and
`top_k_vector = 0`, hybrid mode is selected and the constructed retriever's
vector tier is 0 (`0 or 0` is still 0). -/
theorem get_retriever_zero_tier :
    is_hybrid (get_retriever db_ex bm_ex rr_ex fs_empty_file 0 (str "chunks.jsonl")
        (some 0) none none []) = true ∧
      tier_vector (get_retriever db_ex bm_ex rr_ex fs_empty_file 0 (str "chunks.jsonl")
        (some 0) none none []) = some 0 := by
  constructor
  · decide
  · decide

theorem or_top_k_falsy {o : Option Nat} {d : Nat} (h : o = none ∨ o = some 0) :
    or_top_k o d = d := by
  rcases h with h | h <;> rw [h] <;> rfl

theorem or_top_k_pos {o : Option Nat} {d : Nat} (h : 0 < d) : 0 < or_top_k o d := by
  match o with
  | none => exact h
  | some 0 => exact h
  | some (n + 1) => exact Nat.succ_pos n

/-- Claim C10 amended: in hybrid mode, passing `None` or `0` for any of
`top_k_vector`, `top_k_bm25`, `top_k_final` substitutes the generic `top_k`
for that tier; consequently no tier can be zero provided `top_k` itself is
positive (with `top_k = 0` a zero-sized tier is possible). -/
theorem get_retriever_tier_fallback (db : Str → Nat → List Doc)
    (bm : List (List Str) → List Str → List Int) (rr : Str → Str → Int)
    (fs : Str → Option (List Row)) (topK : Nat) (chunksFile : Str)
    (tkV tkB tkF : Option Nat) (rerankModel : Str)
    (h : chunksFile ≠ [] ∧ (fs chunksFile).isSome) :
    ((tkV = none ∨ tkV = some 0) →
        tier_vector (get_retriever db bm rr fs topK chunksFile tkV tkB tkF rerankModel)
          = some topK) ∧
      ((tkB = none ∨ tkB = some 0) →
        tier_bm25 (get_retriever db bm rr fs topK chunksFile tkV tkB tkF rerankModel)
          = some topK) ∧
      ((tkF = none ∨ tkF = some 0) →
        tier_final (get_retriever db bm rr fs topK chunksFile tkV tkB tkF rerankModel)
          = some topK) ∧
      (0 < topK →
        (∃ a, tier_vector (get_retriever db bm rr fs topK chunksFile tkV tkB tkF rerankModel)
            = some a ∧ 0 < a) ∧
          (∃ b, tier_bm25 (get_retriever db bm rr fs topK chunksFile tkV tkB tkF rerankModel)
            = some b ∧ 0 < b) ∧
          (∃ c, tier_final (get_retriever db bm rr fs topK chunksFile tkV tkB tkF rerankModel)
            = some c ∧ 0 < c)) := by
  rw [get_retriever, if_pos h]
  refine ⟨?_, ?_, ?_, ?_⟩
  · intro hf
    rw [tier_vector, or_top_k_falsy hf]
  · intro hf
    rw [tier_bm25, or_top_k_falsy hf]
  · intro hf
    rw [tier_final, or_top_k_falsy hf]
  · intro hpos
    exact ⟨⟨or_top_k tkV topK, rfl, or_top_k_pos hpos⟩,
      ⟨or_top_k tkB topK, rfl, or_top_k_pos hpos⟩,
      ⟨or_top_k tkF topK, rfl, or_top_k_pos hpos⟩⟩

/-- Witness for the amended C10. -/
theorem get_retriever_tier_fallback_check :
    ((some 0 = none ∨ (some 0 : Option Nat) = some 0) →
        tier_vector (get_retriever db_ex bm_ex rr_ex fs_empty_file 4 (str "chunks.jsonl")
          (some 0) none (some 7) []) = some 4) ∧
      (((none : Option Nat) = none ∨ (none : Option Nat) = some 0) →
        tier_bm25 (get_retriever db_ex bm_ex rr_ex fs_empty_file 4 (str "chunks.jsonl")
          (some 0) none (some 7) []) = some 4) ∧
      ((some 7 = none ∨ (some 7 : Option Nat) = some 0) →
        tier_final (get_retriever db_ex bm_ex rr_ex fs_empty_file 4 (str "chunks.jsonl")
          (some 0) none (some 7) []) = some 4) ∧
      (0 < 4 →
        (∃ a, tier_vector (get_retriever db_ex bm_ex rr_ex fs_empty_file 4 (str "chunks.jsonl")
            (some 0) none (some 7) []) = some a ∧ 0 < a) ∧
          (∃ b, tier_bm25 (get_retriever db_ex bm_ex rr_ex fs_empty_file 4 (str "chunks.jsonl")
            (some 0) none (some 7) []) = some b ∧ 0 < b) ∧
          (∃ c, tier_final (get_retriever db_ex bm_ex rr_ex fs_empty_file 4 (str "chunks.jsonl")
            (some 0) none (some 7) []) = some c ∧ 0 < c)) :=
  get_retriever_tier_fallback db_ex bm_ex rr_ex fs_empty_file 4 (str "chunks.jsonl")
    (some 0) none (some 7) [] (by decide)
